import Mathlib

/-!
# Verification of the N-ary tree component of `c-algorithms` (`tree.c` / `tree.h`)

This development shallowly embeds the tree data structure of the repository
and settles the specification claims about it.

Two complementary embeddings are used, both translated from `tree.c`:

* **Arena model** (`Arena`): the heap of tree nodes is a partial map from
  node addresses (`Nat`) to node records (`TreeNode`), mirroring
  `struct _TreeNode` field by field.  The capacity field `_alloced` is not
  modelled: growing the child array (`tree_children_grow_min_size`) only
  fails on allocation failure, and all claims are conditioned on allocation
  succeeding, so the child array is modelled as the list of its
  `outDegree` live entries.  Every mutating function returns `Option`:
  `none` models undefined behaviour (dangling dereference, out-of-bounds
  array access) or non-termination of an upward `parent` walk (bounded by
  explicit fuel).  A returned C pointer is modelled as `Option Nat`
  (`none` = `NULL`).

* **Position model** (`RTree`): for the (non-mutating) traversal iterators,
  a well-formed tree built through the API is represented as a rose tree,
  and a live node of the iterated subtree `t` is identified by its access
  path from `t`, stored innermost-first (`head` = the node's index `i` in
  its parent, `tail` = the parent's position, `[]` = `t` itself).  Under
  this identification each pointer operation of the C iterators is a total
  path operation: `n->parent` is `List.tail`, `n->i` is `List.head`,
  `n == i->t` is `· = []`, and `n->children[j]` extends the path.
-/

set_option maxHeartbeats 1000000

namespace CTree

/-- Mirror of `struct _TreeNode` (tree.c lines 29–65).  `data` is the opaque
`TreeNodeValue` payload, modelled as a `Nat` token; `children` is the live
prefix `[0, outDegree)` of the child array, so `outDegree = children.length`;
`i` is the node's cached position in its parent's child array; `h` the cached
height. -/
structure TreeNode where
  parent : Option Nat
  children : List Nat
  data : Nat
  i : Nat
  h : Nat
  deriving Repr, DecidableEq

/-- The heap of nodes: a partial map from addresses to node records. -/
def Arena := Nat → Option TreeNode

/-- Write the record of address `x`. -/
def upd (σ : Arena) (x : Nat) (nd : TreeNode) : Arena :=
  fun y => if y = x then some nd else σ y

/-- Release address `x` (the C `free` of a node struct). -/
def eraseA (σ : Arena) (x : Nat) : Arena :=
  fun y => if y = x then none else σ y

/-- The empty heap. -/
def emptyArena : Arena := fun _ => none

@[simp] theorem upd_same (σ : Arena) (x : Nat) (nd : TreeNode) : upd σ x nd x = some nd := by
  simp [upd]

theorem upd_other (σ : Arena) (x y : Nat) (nd : TreeNode) (h : y ≠ x) :
    upd σ x nd y = σ y := by
  simp [upd, h]

theorem eraseA_other (σ : Arena) (x y : Nat) (h : y ≠ x) : eraseA σ x y = σ y := by
  simp [eraseA, h]

/-! ## `tree_update_height` (tree.c lines 75–89)

The C loop computes, for the current node `n`,
`h = 0; for i in [0, outDegree): h = max(h, children[i]->h)` and stores it
(note: the source does **not** add 1), then moves to `n->parent`.
Dereferencing a child that is not live is undefined behaviour, and the upward
walk is bounded by fuel (`none` = the walk did not terminate within the
bound, as happens on a parent cycle). -/

/-- The inner `for` loop of `tree_update_height`: fold `max` over the cached
heights of the children, exactly as the source (with no `+ 1`). -/
def maxChildH (σ : Arena) (cs : List Nat) : Option Nat :=
  cs.foldl (fun acc c => acc.bind fun a => (σ c).map fun cn => max a cn.h) (some 0)

def tree_update_height : Nat → Arena → Option Nat → Option Arena
  | _, σ, none => some σ
  | 0, _, some _ => none
  | fuel+1, σ, some n =>
    match σ n with
    | none => none
    | some nn =>
      match maxChildH σ nn.children with
      | none => none
      | some hmax => tree_update_height fuel (upd σ n { nn with h := hmax }) nn.parent

/-! ## Allocation and deallocation (tree.c lines 143–169) -/

/-- `tree_alloc`: creates a fresh rootless node holding `data`.  The address
`id` models the pointer returned by `malloc`; `malloc` never returns a live
address, so an `id` already present in the arena yields `none`. -/
def tree_alloc (σ : Arena) (id : Nat) (data : Nat) : Option Arena :=
  match σ id with
  | some _ => none
  | none => some (upd σ id { parent := none, children := [], data := data, i := 0, h := 0 })

/-- `tree_free`: `if (t != NULL) { free(t->children); free(t); }` — releases
only the node record itself (and its child-pointer array); it does **not**
recurse into the children. -/
def tree_free (σ : Arena) (t : Option Nat) : Option Arena :=
  match t with
  | none => some σ
  | some t =>
    match σ t with
    | none => none
    | some _ => some (eraseA σ t)

/-! ## Simple queries (tree.c lines 267–348) -/

/-- `tree_out_degree`. -/
def tree_out_degree (σ : Arena) (n : Nat) : Option Nat :=
  (σ n).map fun nn => nn.children.length

/-- `tree_is_leaf`: `tree_out_degree(n) == 0`. -/
def tree_is_leaf (σ : Arena) (n : Nat) : Option Bool :=
  (σ n).map fun nn => nn.children.length = 0

/-- `tree_height_node`: returns the cached `n->h`. -/
def tree_height_node (σ : Arena) (n : Nat) : Option Nat :=
  (σ n).map fun nn => nn.h

/-- `tree_height`: `t == NULL ? 0 : t->h`. -/
def tree_height (σ : Arena) (t : Option Nat) : Option Nat :=
  match t with
  | none => some 0
  | some t => (σ t).map fun tn => tn.h

/-! ## Ancestor / descendant queries (tree.c lines 288–333) -/

/-- The loop of `tree_is_descendant_of`:
`while (d != NULL && d != n) d = d->parent; return d == n;`.
The guard is evaluated before any dereference, so `d = n` needs no fuel. -/
def descLoop (σ : Arena) : Nat → Option Nat → Nat → Option Bool
  | _, none, _ => some false
  | 0, some d, n => if d = n then some true else none
  | fuel+1, some d, n =>
    if d = n then some true
    else
      match σ d with
      | none => none
      | some dn => descLoop σ fuel dn.parent n

def tree_is_descendant_of (σ : Arena) (fuel : Nat) (d n : Nat) : Option Bool :=
  descLoop σ fuel (some d) n

/-- `tree_is_ancestor_of(a, n) = tree_is_descendant_of(n, a)`. -/
def tree_is_ancestor_of (σ : Arena) (fuel : Nat) (a n : Nat) : Option Bool :=
  tree_is_descendant_of σ fuel n a

/-- The counting loop of `tree_depth`:
`while (n != NULL && n != t) { n = n->parent; d++; } return d;`. -/
def depthLoop (σ : Arena) : Nat → Option Nat → Nat → Nat → Option Nat
  | _, none, _, d => some d
  | 0, some n, t, d => if n = t then some d else none
  | fuel+1, some n, t, d =>
    if n = t then some d
    else
      match σ n with
      | none => none
      | some nn => depthLoop σ fuel nn.parent t (d + 1)

/-- `tree_depth`: returns 0 when `t` is not an ancestor of `n`, else counts
edges from `n` up to `t`. -/
def tree_depth (σ : Arena) (fuel : Nat) (t n : Nat) : Option Nat :=
  match tree_is_ancestor_of σ fuel t n with
  | none => none
  | some false => some 0
  | some true => depthLoop σ fuel (some n) t 0

/-! ## `tree_node_remove_child` and `tree_remove` (tree.c lines 119–141, 350–370) -/

/-- The reindexing part of the removal loop: after the shift, each moved
child (the tail of the new child list starting at the removal position `j`)
gets its cached index rewritten to its new position.  Dereferencing a
non-live child is undefined behaviour. -/
def setIndices : Arena → List Nat → Nat → Option Arena
  | σ, [], _ => some σ
  | σ, c :: cs, j =>
    match σ c with
    | none => none
    | some cn => setIndices (upd σ c { cn with i := j }) cs (j + 1)

/-- `tree_node_remove_child(c)`: find the first position of `c` in its
parent's child array (`for (i = 0; i < p->outDegree && p->children[i] != c; i++)`),
remove it, shift the trailing children one place down rewriting their cached
index, and decrement the out-degree.  If `c` is not found the C code writes
`p->children[outDegree]`, out of bounds: `none`. -/
def tree_node_remove_child (σ : Arena) (c : Nat) : Option Arena :=
  match σ c with
  | none => none
  | some cn =>
    match cn.parent with
    | none => none
    | some p =>
      match σ p with
      | none => none
      | some pn =>
        let idx := pn.children.findIdx (· = c)
        if idx < pn.children.length then
          let cs' := pn.children.eraseIdx idx
          match setIndices σ (cs'.drop idx) idx with
          | none => none
          | some σ₁ =>
            match σ₁ p with
            | none => none
            | some pn₁ => some (upd σ₁ p { pn₁ with children := cs' })
        else none

/-- `tree_remove(n)`: a root is returned unchanged; otherwise `n` is removed
from its parent's child array, the ancestor heights are recomputed from the
parent, and `n->parent`/`n->i` are cleared.  The returned pointer is always
`n` itself, so only the resulting arena is returned here. -/
def tree_remove (fuel : Nat) (σ : Arena) (n : Nat) : Option Arena :=
  match σ n with
  | none => none
  | some nn =>
    match nn.parent with
    | none => some σ
    | some p =>
      match tree_node_remove_child σ n with
      | none => none
      | some σ₁ =>
        match tree_update_height fuel σ₁ (some p) with
        | none => none
        | some σ₂ =>
          match σ₂ n with
          | none => none
          | some nn₂ => some (upd σ₂ n { nn₂ with parent := none, i := 0 })

/-! ## `tree_add_subtree` and `tree_add_child` (tree.c lines 378–436)

Results are `Option (Option Nat × Arena)`: the outer `Option` is definedness
(undefined behaviour / exhausted fuel), the `Option Nat` the returned C
pointer (`none` = `NULL`). -/

/-- `tree_add_subtree(n, t)`: rejects `t == NULL` and — despite the header
comment promising that `t` is first detached — also rejects any `t` that
still has a parent, returning `NULL` in both cases.  (The subsequent
`tree_remove(t)` call in the source is therefore a no-op and is not
modelled.)  Otherwise `t` is appended as last child of `n`, `t->parent` and
`t->i` are set, and heights are recomputed from `n`.  Success returns
`NULL`; the grow-failure branch (returning `t`) requires allocation failure,
which is outside this model. -/
def tree_add_subtree (fuel : Nat) (σ : Arena) (n : Nat) (t : Option Nat) :
    Option (Option Nat × Arena) :=
  match t with
  | none => some (none, σ)
  | some t =>
    match σ t with
    | none => none
    | some tn =>
      match tn.parent with
      | some _ => some (none, σ)
      | none =>
        match σ n with
        | none => none
        | some nn =>
          let σ₁ := upd σ n { nn with children := nn.children ++ [t] }
          match σ₁ t with
          | none => none
          | some tn₁ =>
            let σ₂ := upd σ₁ t { tn₁ with parent := some n, i := nn.children.length }
            match tree_update_height fuel σ₂ (some n) with
            | none => none
            | some σ₃ => some (none, σ₃)

/-- `tree_add_child(n, data)`: grow, `tree_alloc` a fresh node `cid`, append
it as last child of `n`, set its parent and index, recompute heights, and
return the new child. -/
def tree_add_child (fuel : Nat) (σ : Arena) (n : Nat) (data : Nat) (cid : Nat) :
    Option (Option Nat × Arena) :=
  match σ n with
  | none => none
  | some _ =>
    match tree_alloc σ cid data with
    | none => none
    | some σ₀ =>
      match σ₀ n with
      | none => none
      | some nn₀ =>
        let σ₁ := upd σ₀ n { nn₀ with children := nn₀.children ++ [cid] }
        match σ₁ cid with
        | none => none
        | some cn =>
          let σ₂ := upd σ₁ cid { cn with parent := some n, i := nn₀.children.length }
          match tree_update_height fuel σ₂ (some n) with
          | none => none
          | some σ₃ => some (some cid, σ₃)

/-! ## `tree_insert_subtree` and `tree_insert_child` (tree.c lines 438–497)

The shift loop `for (a = n->outDegree - 1; a >= i; a--)` runs over the
**unsigned** counter `a`; the initial value and the decrement wrap modulo
`2^32`.  The child array is modelled by the list of its live slots; after
the growth call the capacity is at least `outDegree + 1`, so writing one
slot past the current end appends, while any access further out is out of
bounds (undefined behaviour). -/

/-- Number of values of C `unsigned int`. -/
def U32 : Nat := 2 ^ 32

/-- Write slot `j` of the child array.  `j = length` is the first slot of the
grown capacity region; anything beyond is out of bounds. -/
def writeSlot (slots : List Nat) (j : Nat) (x : Nat) : Option (List Nat) :=
  if j < slots.length then some (slots.set j x)
  else if j = slots.length then some (slots ++ [x])
  else none

/-- The body of the shift loop:
`n->children[a+1] = n->children[a]; n->children[a+1]->i = a + 1;` with `a`
decremented modulo `2^32`.  Reading a slot at or beyond the live region is
undefined behaviour (`none`); the loop bound `fuel` is chosen by the caller
large enough for every terminating execution. -/
def shiftLoop : Nat → Arena → List Nat → Nat → Nat → Option (Arena × List Nat)
  | 0, _, _, _, _ => none
  | fuel+1, σ, slots, a, i =>
    if a ≥ i then
      match slots.get? a with
      | none => none
      | some c =>
        match writeSlot slots (a + 1) c with
        | none => none
        | some slots' =>
          match σ c with
          | none => none
          | some cn =>
            shiftLoop fuel (upd σ c { cn with i := a + 1 }) slots'
              (if a = 0 then U32 - 1 else a - 1) i
    else some (σ, slots)

/-- `tree_insert_subtree(n, t, i)`: rejects (returning `t`) when `t == NULL`,
`i > outDegree` or `t` has a parent; otherwise shifts the children at
positions `≥ i` one place up (rewriting their cached index), installs `t` at
position `i`, sets `t->parent`/`t->i`, and recomputes heights.  Success
returns `NULL`.  The shift loop's unsigned counter starts at
`outDegree - 1` (wrapping to `2^32 - 1` when `outDegree == 0`). -/
def tree_insert_subtree (fuel : Nat) (σ : Arena) (n : Nat) (t : Option Nat) (i : Nat) :
    Option (Option Nat × Arena) :=
  match t with
  | none => some (none, σ)
  | some t =>
    match σ n with
    | none => none
    | some nn =>
      if i > nn.children.length then some (some t, σ)
      else
        match σ t with
        | none => none
        | some tn =>
          match tn.parent with
          | some _ => some (some t, σ)
          | none =>
            let od := nn.children.length
            match shiftLoop (od + 2) σ nn.children
                (if od = 0 then U32 - 1 else od - 1) i with
            | none => none
            | some (σ₁, slots₁) =>
              match writeSlot slots₁ i t with
              | none => none
              | some slots₂ =>
                match σ₁ n with
                | none => none
                | some nn₁ =>
                  let σ₂ := upd σ₁ n { nn₁ with children := slots₂ }
                  match σ₂ t with
                  | none => none
                  | some tn₂ =>
                    let σ₃ := upd σ₂ t { tn₂ with parent := some n, i := i }
                    match tree_update_height fuel σ₃ (some n) with
                    | none => none
                    | some σ₄ => some (none, σ₄)

/-- `tree_insert_child(n, data, i)`: range-check `i`, allocate a fresh node
`cid`, delegate to `tree_insert_subtree`, and pass its result through:
`if (c == NULL) return c; else { tree_free(c); return NULL; }` — so the
successful insertion (where `tree_insert_subtree` returns `NULL`) also
returns `NULL`. -/
def tree_insert_child (fuel : Nat) (σ : Arena) (n : Nat) (data : Nat) (cid : Nat) (i : Nat) :
    Option (Option Nat × Arena) :=
  match σ n with
  | none => none
  | some nn =>
    if i > nn.children.length then some (none, σ)
    else
      match tree_alloc σ cid data with
      | none => none
      | some σ₀ =>
        match tree_insert_subtree fuel σ₀ n (some cid) i with
        | none => none
        | some (c, σ₁) =>
          match c with
          | none => some (none, σ₁)
          | some c =>
            match tree_free σ₁ (some c) with
            | none => none
            | some σ₂ => some (none, σ₂)

/-! ## `tree_set_subtree` and `tree_set_child` (tree.c lines 499–556) -/

/-- `tree_set_subtree(n, t, i)`: rejects (returning `t`) when `t == NULL`,
`i > outDegree` or `t` has a parent.  `i == outDegree` appends; otherwise
the existing child at `i` is freed (`tree_free`, i.e. only its own record)
and `t` installed in its slot.  Then `t->parent`/`t->i` are set and heights
recomputed.  Success returns `NULL`. -/
def tree_set_subtree (fuel : Nat) (σ : Arena) (n : Nat) (t : Option Nat) (i : Nat) :
    Option (Option Nat × Arena) :=
  match t with
  | none => some (none, σ)
  | some t =>
    match σ n with
    | none => none
    | some nn =>
      if i > nn.children.length then some (some t, σ)
      else
        match σ t with
        | none => none
        | some tn =>
          match tn.parent with
          | some _ => some (some t, σ)
          | none =>
            let step : Option Arena :=
              if i = nn.children.length then
                some (upd σ n { nn with children := nn.children ++ [t] })
              else
                match nn.children.get? i with
                | none => none
                | some c =>
                  match tree_free σ (some c) with
                  | none => none
                  | some σf =>
                    match σf n with
                    | none => none
                    | some nnf => some (upd σf n { nnf with children := nnf.children.set i t })
            match step with
            | none => none
            | some σ₁ =>
              match σ₁ t with
              | none => none
              | some tn₁ =>
                let σ₂ := upd σ₁ t { tn₁ with parent := some n, i := i }
                match tree_update_height fuel σ₂ (some n) with
                | none => none
                | some σ₃ => some (none, σ₃)

/-- `tree_set_child(n, data, i)`: range-check `i`, allocate a fresh node,
delegate to `tree_set_subtree` and pass its result through — success
(`tree_set_subtree` returning `NULL`) again returns `NULL`. -/
def tree_set_child (fuel : Nat) (σ : Arena) (n : Nat) (data : Nat) (cid : Nat) (i : Nat) :
    Option (Option Nat × Arena) :=
  match σ n with
  | none => none
  | some nn =>
    if i > nn.children.length then some (none, σ)
    else
      match tree_alloc σ cid data with
      | none => none
      | some σ₀ =>
        match tree_set_subtree fuel σ₀ n (some cid) i with
        | none => none
        | some (c, σ₁) =>
          match c with
          | none => some (none, σ₁)
          | some c =>
            match tree_free σ₁ (some c) with
            | none => none
            | some σ₂ => some (none, σ₂)

/-! ## Operation wrapper and footprint helpers (for the state invariants) -/

/-- The public mutating operations on a node's child list (the subject of the
index invariant).  `cid` is the fresh address handed to `tree_alloc` by the
`*_child` convenience wrappers. -/
inductive TreeOp where
  | addChild (n data cid : Nat)
  | addSubtree (n : Nat) (t : Option Nat)
  | insertSubtree (n : Nat) (t : Option Nat) (i : Nat)
  | insertChild (n data cid i : Nat)
  | setSubtree (n : Nat) (t : Option Nat) (i : Nat)
  | setChild (n data cid i : Nat)
  | remove (n : Nat)

/-- Run one public mutating operation, keeping the resulting arena. -/
def applyOp (fuel : Nat) (σ : Arena) : TreeOp → Option Arena
  | .addChild n d cid => (tree_add_child fuel σ n d cid).map (·.2)
  | .addSubtree n t => (tree_add_subtree fuel σ n t).map (·.2)
  | .insertSubtree n t i => (tree_insert_subtree fuel σ n t i).map (·.2)
  | .insertChild n d cid i => (tree_insert_child fuel σ n d cid i).map (·.2)
  | .setSubtree n t i => (tree_set_subtree fuel σ n t i).map (·.2)
  | .setChild n d cid i => (tree_set_child fuel σ n d cid i).map (·.2)
  | .remove n => tree_remove fuel σ n

/-- The addresses of the subtree rooted at `x`, up to recursion depth `k`
(reaching every descendant once `k` exceeds the subtree's height). -/
def subtreeIds : Nat → Arena → Nat → List Nat
  | 0, _, _ => []
  | k+1, σ, x =>
    x :: (match σ x with
      | none => []
      | some xn => xn.children.flatMap fun c => subtreeIds k σ c)

/-- The ancestor chain visited by `tree_update_height` starting at `n`
(fuel-truncated exactly like `tree_update_height`). -/
def hChain : Nat → Arena → Option Nat → List Nat
  | _, _, none => []
  | 0, _, some _ => []
  | fuel+1, σ, some n =>
    n :: (match σ n with
      | none => []
      | some nn => hChain fuel σ nn.parent)

/-! ## The position model of traversal (tree.c lines 599–889)

`RTree` is the shape of a live tree; a node of the iterated subtree `t` is
its access path from `t`, innermost index first (`[] = t`,
`head = n->i`, `tail = n->parent`, `j :: pos` = `child j` of the node at
`pos`). -/

/-- A rose tree: the value stored at a node and its ordered children. -/
inductive RTree where
  | node (data : Nat) (children : List RTree)

/-- The ordered children of a node. -/
def childrenOf : RTree → List RTree
  | .node _ cs => cs

/-- The payload of a node. -/
def dataOf : RTree → Nat
  | .node d _ => d

/-- Resolve a root-first path. -/
def subtreeAtRev : RTree → List Nat → Option RTree
  | t, [] => some t
  | .node _ cs, j :: rest =>
    match cs.get? j with
    | none => none
    | some c => subtreeAtRev c rest

/-- Resolve an innermost-first position. -/
def subtreeAt (t : RTree) (pos : List Nat) : Option RTree :=
  subtreeAtRev t pos.reverse

/-- The out-degree of the node at a position. -/
def outDegAt (t : RTree) (pos : List Nat) : Option Nat :=
  (subtreeAt t pos).map fun s => (childrenOf s).length

/-- `tree_is_leaf` at a position. -/
def isLeafAt (t : RTree) (pos : List Nat) : Bool :=
  outDegAt t pos == some 0

/-- The `while` descent shared by `tree_iter_leaves_first` and
`tree_postorder_walk`: from the node at position `acc`, repeatedly step to
the first child until a leaf is reached. -/
def leftmostLeafPos : RTree → List Nat → List Nat
  | .node _ [], acc => acc
  | .node _ (c :: _), acc => leftmostLeafPos c (0 :: acc)

/-- The 3-slot cursor of `struct _TreeIterator` (the `t` field is implicit:
positions are relative to the iterated subtree). -/
structure TreeIter where
  prev : Option (List Nat)
  current : Option (List Nat)
  next : Option (List Nat)
  deriving Repr, DecidableEq

/-- `tree_iter_alloc`: all slots empty. -/
def tree_iter_alloc : TreeIter := { prev := none, current := none, next := none }

/-- `tree_iter_leaves_first(i, t)`: sets `i->next` to the leftmost leaf of
`t`; the other slots are left as they are. -/
def tree_iter_leaves_first (t : RTree) (it : TreeIter) : TreeIter :=
  { it with next := some (leftmostLeafPos t []) }

/-- `tree_iter_has_next`. -/
def tree_iter_has_next (it : TreeIter) : Bool :=
  it.next.isSome

/-- The upward search of `tree_iter_leaves_next`:
`while (p != NULL && p != i->t) { if (p->parent != NULL && p->i < p->parent->outDegree - 1) break; p = p->parent; }`.
Positions below `t` always have a parent; `p == i->t` is `pos = []`.  The
out-degree of the parent of an occupied position is at least 1, so the
unsigned `- 1` is the natural one. -/
def upLoopLeaves (t : RTree) : List Nat → Option (List Nat)
  | [] => none
  | j :: rest =>
    match outDegAt t rest with
    | none => none
    | some d => if j < d - 1 then some (j :: rest) else upLoopLeaves t rest

/-- The recomputation of `i->next` in `tree_iter_leaves_next`: upward search
for an ancestor with a right sibling, then
`p = p->parent->children[p->i + 1]; while (p->outDegree > 0) p = p->children[0];`.
`none` means the walk left `t` (no further leaf).  The two inner fallback
branches are unreachable: a break position `j :: rest` satisfies
`j + 1 < ` the parent's out-degree. -/
def succLeaf (t : RTree) (pos : List Nat) : Option (List Nat) :=
  match upLoopLeaves t pos with
  | some (j :: rest) =>
    match subtreeAt t rest with
    | some pnode =>
      match (childrenOf pnode).get? (j + 1) with
      | some sib => some (leftmostLeafPos sib ((j + 1) :: rest))
      | none => none
    | none => none
  | _ => none

/-- `tree_iter_leaves_next(i)`: shift the cursor (`prev ← current`,
`current ← next`), recompute `next`, and return the (new) current node. -/
def tree_iter_leaves_next (t : RTree) (it : TreeIter) : TreeIter × Option (List Nat) :=
  let nxt : Option (List Nat) :=
    match it.next with
    | none => none
    | some pos => succLeaf t pos
  ({ prev := it.current, current := it.next, next := nxt }, it.next)

/-- Drive the leaves iterator forward until `has_next` fails, collecting the
node returned by each advance (fuel-bounded). -/
def runLeaves (t : RTree) : Nat → TreeIter → Option (List (List Nat))
  | 0, it => if tree_iter_has_next it then none else some []
  | fuel+1, it =>
    match it.next with
    | none => some []
    | some pos =>
      match runLeaves t fuel (tree_iter_leaves_next t it).1 with
      | none => none
      | some rest => some (pos :: rest)

/-! ### Preorder walk (tree.c lines 748–813) -/

/-- `tree_preorder_walk(i, t)`: `next = t`, the other slots cleared. -/
def tree_preorder_walk : TreeIter :=
  { prev := none, current := none, next := some [] }

/-- The upward search of `tree_preorder_walk_next`: climb while the current
node is its parent's last child; on finding a following sibling the new
`next` is that sibling itself (no descent).  Reaching `t` (or a parentless
node) ends the walk. -/
def preUpLoop (t : RTree) : List Nat → Option (List Nat)
  | [] => none
  | j :: rest =>
    match outDegAt t rest with
    | none => none
    | some d => if j < d - 1 then some ((j + 1) :: rest) else preUpLoop t rest

/-- `tree_preorder_walk_next(i)`. -/
def tree_preorder_walk_next (t : RTree) (it : TreeIter) : TreeIter × Option (List Nat) :=
  let nxt : Option (List Nat) :=
    match it.next with
    | none => none
    | some pos =>
      match outDegAt t pos with
      | none => none
      | some d => if d > 0 then some (0 :: pos) else preUpLoop t pos
  ({ prev := it.current, current := it.next, next := nxt }, it.next)

/-! ### Postorder walk (tree.c lines 815–889) -/

/-- `tree_postorder_walk(i, t)`: `next` descends from `t` to the leftmost
leaf. -/
def tree_postorder_walk (t : RTree) : TreeIter :=
  { prev := none, current := none, next := some (leftmostLeafPos t []) }

/-- `tree_postorder_walk_next(i)`: ended at `t`; else the leftmost-leaf
descent of the following sibling if one exists, else the parent. -/
def tree_postorder_walk_next (t : RTree) (it : TreeIter) : TreeIter × Option (List Nat) :=
  let nxt : Option (List Nat) :=
    match it.next with
    | none => none
    | some [] => none
    | some (j :: rest) =>
      match outDegAt t rest with
      | none => none
      | some d =>
        if j < d - 1 then
          match subtreeAt t rest with
          | some pnode =>
            match (childrenOf pnode).get? (j + 1) with
            | some sib => some (leftmostLeafPos sib ((j + 1) :: rest))
            | none => none
          | none => none
        else some rest
  ({ prev := it.current, current := it.next, next := nxt }, it.next)

/-- The upward search of `tree_postorder_walk_prev`: climb while the current
node is its parent's first child; on finding a preceding sibling the new
`prev` is that sibling itself (the source does **not** descend to its
rightmost leaf).  Reaching `t` (or a parentless node) exits the loop. -/
def postPrevLoop (t : RTree) : List Nat → Option (List Nat)
  | [] => none
  | j :: rest => if j > 0 then some ((j - 1) :: rest) else postPrevLoop t rest

/-- `tree_postorder_walk_prev(i)`: after the slot shift
(`next ← current`, `current ← prev`), the source returns `i->current` in
the two terminating branches but returns the freshly computed `i->prev` in
the descend-to-last-child branch and in the previous-sibling branch. -/
def tree_postorder_walk_prev (t : RTree) (it : TreeIter) : TreeIter × Option (List Nat) :=
  let base : TreeIter := { prev := it.prev, current := it.prev, next := it.current }
  match it.prev with
  | none => (base, base.current)
  | some pos =>
    match outDegAt t pos with
    | none => (base, none)
    | some d =>
      if d > 0 then
        let p' : List Nat := (d - 1) :: pos
        ({ base with prev := some p' }, some p')
      else
        match postPrevLoop t pos with
        | some q => ({ base with prev := some q }, some q)
        | none => ({ base with prev := none }, base.current)

/-! ## Specification-side traversal lists

These define, directly by structural recursion, the left-to-right list of
leaf positions, the preorder list of all positions, and the number of
leaves, against which the iterator runs are compared. -/

mutual

/-- The positions of the leaves of `t`, in left-to-right sibling order. -/
def leavesPos : RTree → List (List Nat)
  | .node _ [] => [[]]
  | .node _ (c :: cs) => leavesPosList 0 (c :: cs)
termination_by t => sizeOf t

/-- Leaf positions of a child-list suffix whose first element has index `j`. -/
def leavesPosList : Nat → List RTree → List (List Nat)
  | _, [] => []
  | j, c :: cs => (leavesPos c).map (· ++ [j]) ++ leavesPosList (j + 1) cs
termination_by _ cs => sizeOf cs

end

mutual

/-- All positions of `t`, in preorder (each node before its children,
children left to right). -/
def preorderPos : RTree → List (List Nat)
  | .node _ cs => [] :: preorderPosList 0 cs
termination_by t => sizeOf t

/-- Preorder positions of a child-list suffix whose first element has index
`j`. -/
def preorderPosList : Nat → List RTree → List (List Nat)
  | _, [] => []
  | j, c :: cs => (preorderPos c).map (· ++ [j]) ++ preorderPosList (j + 1) cs
termination_by _ cs => sizeOf cs

end

mutual

/-- The number of leaves of a tree. -/
def countLeaves : RTree → Nat
  | .node _ [] => 1
  | .node _ (c :: cs) => countLeavesList (c :: cs)
termination_by t => sizeOf t

/-- The number of leaves of a forest. -/
def countLeavesList : List RTree → Nat
  | [] => 0
  | c :: cs => countLeaves c + countLeavesList cs
termination_by cs => sizeOf cs

end

/-! ## Concrete heaps and trees used as inputs for the refuted claims -/

/-- A single freshly allocated root node holding payload 7 at address 0. -/
def c1Arena : Arena :=
  fun x => if x = 0 then some { parent := none, children := [], data := 7, i := 0, h := 0 } else none

/-- Node 0 is a root owning node 1; node 2 is a separate rootless node. -/
def c2Arena : Arena :=
  fun x =>
    if x = 0 then some { parent := none, children := [1], data := 5, i := 0, h := 0 }
    else if x = 1 then some { parent := some 0, children := [], data := 6, i := 0, h := 0 }
    else if x = 2 then some { parent := none, children := [], data := 7, i := 0, h := 0 }
    else none

/-- Node 0 is a root with one child (node 1). -/
def c3Arena : Arena :=
  fun x =>
    if x = 0 then some { parent := none, children := [1], data := 3, i := 0, h := 0 }
    else if x = 1 then some { parent := some 0, children := [], data := 4, i := 0, h := 0 }
    else none

/-- Node 0 is a root with one child (node 1); nodes 2 and 3 are rootless. -/
def c4Arena : Arena :=
  fun x =>
    if x = 0 then some { parent := none, children := [1], data := 3, i := 0, h := 0 }
    else if x = 1 then some { parent := some 0, children := [], data := 4, i := 0, h := 0 }
    else if x = 2 then some { parent := none, children := [], data := 5, i := 0, h := 0 }
    else if x = 3 then some { parent := none, children := [], data := 6, i := 0, h := 0 }
    else none

/-- The tree `R("R"=0) [ A(1) [ C(2) ], B(3) ]` from the postorder retreat
counterexample. -/
def c8Tree : RTree := .node 0 [.node 1 [.node 2 []], .node 3 []]

/-! ## Claim C1 — height invariant -/

/-- **C1** (refuting evaluation).  The claim states that after
`tree_add_child` returns, the stored height of the parent equals
`1 + max(children's heights)` and that `height(n) == 0` iff `is_leaf(n)`.
`tree_update_height` (tree.c line 82) computes the plain maximum of the
children's cached heights without adding 1, so after adding a child to a
fresh root the root has one child (it is not a leaf) yet its stored height
is still 0 instead of 1. -/
theorem add_child_leaves_height_zero :
    ((tree_add_child 4 c1Arena 0 8 1).map fun r =>
      (r.1, (r.2 0).map fun nd => (nd.h, nd.children.length), tree_is_leaf r.2 0))
    = some (some 1, some (0, 1), some false) := rfl

/-! ## Claim C2 — attach of a parented subtree -/

/-- **C2** (refuting evaluation).  The claim states that
`tree_add_subtree(parent, t)` succeeds for a `t` that currently has a
parent, first detaching it.  The source (tree.c line 382) instead rejects
any `t` with `t->parent != NULL`, returning `NULL` and leaving the heap
untouched: node 1 stays a child of node 0 and node 2 gains no child, for
every fuel bound. -/
theorem add_subtree_rejects_parented_subtree :
    ∀ fuel, tree_add_subtree fuel c2Arena 2 (some 1) = some (none, c2Arena) :=
  fun _ => rfl

/-! ## Claim C3 — insert_child / set_child return values -/

/-- **C3** (refuting evaluation).  The claim states that on success
`tree_insert_child` and `tree_set_child` return the newly attached child
(a non-`NULL` result).  Both pass through the result of the subtree
routine, which returns `NULL` on success, so both return `NULL` even
though the insertion/replacement took place: here the insert succeeds
(node 0's children become `[1, 2]`) and the set succeeds (child list
becomes `[2]` and the old child 1 is freed), yet both calls return `NULL`. -/
theorem insert_and_set_child_return_null_on_success :
    (((tree_insert_child 4 c3Arena 0 9 2 1).map fun r => (r.1, (r.2 0).map (·.children)))
      = some (none, some [1, 2]))
  ∧ (((tree_set_child 4 c3Arena 0 9 2 0).map fun r => (r.1, (r.2 0).map (·.children), r.2 1))
      = some (none, some [2], none)) :=
  ⟨rfl, rfl⟩

/-! ## Claim C4 — insert_subtree at position 0 -/

/-- **C4** (refuting evaluation).  The claim states that
`tree_insert_subtree(n, t, i)` succeeds for every `0 ≤ i ≤ out_degree(n)`,
including `i = 0`.  The shift loop `for (a = outDegree - 1; a >= i; a--)`
uses an unsigned counter, so for `i = 0` the guard `a >= 0` never fails:
after shifting position 0 the counter wraps to `2^32 - 1` and the loop
reads `children[2^32 - 1]`, out of bounds — undefined behaviour for every
fuel bound, both on a node with one child and on a childless node. -/
theorem insert_subtree_at_zero_is_undefined :
    ∀ fuel, tree_insert_subtree fuel c4Arena 0 (some 2) 0 = none
          ∧ tree_insert_subtree fuel c4Arena 2 (some 3) 0 = none :=
  fun _ => ⟨rfl, rfl⟩

/-! ## Claim C5 — tree_free releases descendants -/

/-- **C5** (refuting evaluation).  The claim (and the header comment
"Frees all nodes of the given tree") states that `tree_free` releases the
node and all its descendants.  The source (tree.c lines 163–169) frees only
the node's child-pointer array and the node record itself: after freeing
the root 0 of a two-node tree, the child node 1 is still live (its payload
is untouched).  Freeing `NULL` is a no-op. -/
theorem tree_free_leaves_descendants_live :
    (((tree_free c2Arena (some 0)).map fun σ => (σ 0, (σ 1).map (·.data)))
      = some (none, some 6))
  ∧ tree_free c2Arena none = some c2Arena :=
  ⟨rfl, rfl⟩

/-! ## Claim C8 — walks visit k nodes; retreat after advance -/

/-- **C8** (refuting evaluation).  The claim states that for both walks a
retreat immediately after an advance returns the node visited immediately
before that advance.  On `c8Tree` the postorder advances return C `[0,0]`,
A `[0]`, B `[1]`; the node visited before the third advance is A (the
iterator's `prev` slot, `[0]`), but `tree_postorder_walk_prev` then returns
`[0,0]` (node C): the source returns the freshly computed `i->prev` instead
of `i->current` in the descend branch (tree.c line 872). -/
theorem postorder_retreat_returns_wrong_node :
    (let it0 := tree_postorder_walk c8Tree
     let s1 := tree_postorder_walk_next c8Tree it0
     let s2 := tree_postorder_walk_next c8Tree s1.1
     let s3 := tree_postorder_walk_next c8Tree s2.1
     let r := tree_postorder_walk_prev c8Tree s3.1
     (s1.2, s2.2, s3.2, s3.1.prev, r.2))
    = (some [0, 0], some [0], some [1], some [0], some [0, 0]) := rfl

/-! ## Claim C10 — reflexivity of the ancestor/descendant relations -/

/-- **C10**.  `tree_is_descendant_of(n, n)` and `tree_is_ancestor_of(n, n)`
hold for every node (the loop guard `d != n` fails before any dereference),
`tree_depth(t, t)` returns 0 through the "`t` is an ancestor" branch, and
`tree_depth` also returns 0 for any `n` that is not below `t` — the two
cases are indistinguishable from the return value. -/
theorem descendant_ancestor_reflexive_and_depth_zero :
    ∀ (σ : Arena) (fuel t n : Nat),
      tree_is_descendant_of σ fuel n n = some true
    ∧ tree_is_ancestor_of σ fuel n n = some true
    ∧ tree_depth σ fuel t t = some 0
    ∧ (tree_is_ancestor_of σ fuel t n = some false → tree_depth σ fuel t n = some 0) := by
  intro σ fuel t n
  have hrefl : ∀ m, tree_is_descendant_of σ fuel m m = some true := by
    intro m
    cases fuel <;> simp [tree_is_descendant_of, descLoop]
  refine ⟨hrefl n, hrefl n, ?_, ?_⟩
  · have h0 : depthLoop σ fuel (some t) t 0 = some 0 := by
      cases fuel <;> simp [depthLoop]
    simp [tree_depth, tree_is_ancestor_of, hrefl t, h0]
  · intro hfalse
    simp [tree_depth, hfalse]

/-- Witness for C10: with the concrete heap `c2Arena`, node 0 is not below
node 2, and `tree_depth` indeed returns 0 there by the theorem. -/
theorem descendant_ancestor_reflexive_and_depth_zero_witness :
    tree_depth c2Arena 1 2 0 = some 0 :=
  (descendant_ancestor_reflexive_and_depth_zero c2Arena 1 2 0).2.2.2 rfl

/-! ## Infrastructure for the leaves-traversal proof (C9) -/

/-- Structural induction over rose trees with the hypothesis available for
every child. -/
theorem RTree.myInduction (P : RTree → Prop)
    (h : ∀ d cs, (∀ c ∈ cs, P c) → P (.node d cs)) : ∀ t, P t
  | .node d cs => h d cs (fun c hc => RTree.myInduction P h c)
termination_by t => sizeOf t
decreasing_by
  simp only [RTree.node.sizeOf_spec]
  have := List.sizeOf_lt_of_mem hc
  omega

/-- The accumulator of the leftmost-leaf descent is simply appended. -/
theorem leftmostLeafPos_acc : ∀ (s : RTree) (acc : List Nat),
    leftmostLeafPos s acc = leftmostLeafPos s [] ++ acc := by
  intro s
  induction s using RTree.myInduction with
  | h d cs ih =>
    intro acc
    cases cs with
    | nil => simp [leftmostLeafPos]
    | cons c cs' =>
      have hc : c ∈ c :: cs' := List.mem_cons_self c cs'
      simp only [leftmostLeafPos]
      rw [ih c hc (0 :: acc), ih c hc [0], List.append_assoc]
      simp

/-- Path resolution splits over list concatenation. -/
theorem subtreeAtRev_append : ∀ (p q : List Nat) (t : RTree),
    subtreeAtRev t (p ++ q) = (subtreeAtRev t p).bind fun s => subtreeAtRev s q := by
  intro p
  induction p with
  | nil => intro q t; simp [subtreeAtRev]
  | cons j rest ih =>
    intro q t
    cases t with
    | node d cs =>
      simp only [List.cons_append, subtreeAtRev]
      cases hcj : cs.get? j with
      | none => simp
      | some c => simpa using ih q c

/-- Resolving one more outer step: positions of a child `c` of the root,
written `pos ++ [j]`, resolve through `c`. -/
theorem subtreeAt_append {cs : List RTree} {c : RTree} {j : Nat}
    (hc : cs.get? j = some c) (d : Nat) (pos : List Nat) :
    subtreeAt (.node d cs) (pos ++ [j]) = subtreeAt c pos := by
  simp only [subtreeAt, List.reverse_append, List.reverse_cons, List.reverse_nil,
    List.nil_append, List.singleton_append, subtreeAtRev, hc]

/-- Out-degree version of `subtreeAt_append`. -/
theorem outDegAt_append {cs : List RTree} {c : RTree} {j : Nat}
    (hc : cs.get? j = some c) (d : Nat) (pos : List Nat) :
    outDegAt (.node d cs) (pos ++ [j]) = outDegAt c pos := by
  simp only [outDegAt, subtreeAt_append hc]

/-- Leaf-ness version of `subtreeAt_append`. -/
theorem isLeafAt_append {cs : List RTree} {c : RTree} {j : Nat}
    (hc : cs.get? j = some c) (d : Nat) (pos : List Nat) :
    isLeafAt (.node d cs) (pos ++ [j]) = isLeafAt c pos := by
  simp only [isLeafAt, outDegAt_append hc]

/-- An ancestor (suffix) of a resolvable position is resolvable. -/
theorem subtreeAt_suffix_isSome {t : RTree} {a b : List Nat}
    (h : (subtreeAt t (a ++ b)).isSome) : (subtreeAt t b).isSome := by
  simp only [subtreeAt, List.reverse_append, subtreeAtRev_append] at h
  cases hb : subtreeAtRev t b.reverse with
  | none => rw [hb] at h; simp at h
  | some s => simp [subtreeAt, hb]

/-- Unfolding of the upward search at an occupied position, once the
parent's out-degree is known. -/
theorem upLoopLeaves_cons {t : RTree} {j' : Nat} {rest : List Nat} {dd : Nat}
    (hdeg : outDegAt t rest = some dd) :
    upLoopLeaves t (j' :: rest) =
      if j' < dd - 1 then some (j' :: rest) else upLoopLeaves t rest := by
  simp [upLoopLeaves, hdeg]

/-- If the upward search breaks inside child `c`, it breaks at the lifted
position inside the whole tree. -/
theorem upLoopLeaves_append_some {cs : List RTree} {c : RTree} {j : Nat}
    (hc : cs.get? j = some c) (d : Nat) :
    ∀ (pos r : List Nat), upLoopLeaves c pos = some r →
      upLoopLeaves (.node d cs) (pos ++ [j]) = some (r ++ [j]) := by
  intro pos
  induction pos with
  | nil => intro r h; simp [upLoopLeaves] at h
  | cons j' rest ih =>
    intro r h
    cases hdeg : outDegAt c rest with
    | none => simp [upLoopLeaves, hdeg] at h
    | some dd =>
      rw [upLoopLeaves_cons hdeg] at h
      have hdeg' : outDegAt (.node d cs) (rest ++ [j]) = some dd := by
        rw [outDegAt_append hc d rest, hdeg]
      rw [show (j' :: rest) ++ [j] = j' :: (rest ++ [j]) from rfl,
        upLoopLeaves_cons hdeg']
      by_cases hlt : j' < dd - 1
      · rw [if_pos hlt] at h
        simp only [Option.some_inj] at h
        subst h
        simp [hlt]
      · rw [if_neg hlt] at h
        rw [if_neg hlt]
        exact ih r h

/-- If the upward search inside child `c` reaches `c` itself without a
break, then inside the whole tree it continues past `c`: it breaks at `c`'s
position `j` if `c` has a right sibling, else ends the walk. -/
theorem upLoopLeaves_append_none {cs : List RTree} {c : RTree} {j : Nat}
    (hc : cs.get? j = some c) (d : Nat) :
    ∀ (pos : List Nat), (subtreeAt c pos).isSome → upLoopLeaves c pos = none →
      upLoopLeaves (.node d cs) (pos ++ [j]) =
        if j < cs.length - 1 then some [j] else none := by
  intro pos
  induction pos with
  | nil =>
    intro _ _
    simp [upLoopLeaves, outDegAt, subtreeAt, subtreeAtRev, childrenOf]
  | cons j' rest ih =>
    intro hv h
    have hvrest : (subtreeAt c rest).isSome := by
      have heq : j' :: rest = [j'] ++ rest := rfl
      rw [heq] at hv
      exact subtreeAt_suffix_isSome hv
    cases hdeg : outDegAt c rest with
    | none =>
      exfalso
      simp only [outDegAt] at hdeg
      cases hs : subtreeAt c rest with
      | none => rw [hs] at hvrest; simp at hvrest
      | some s => rw [hs] at hdeg; simp at hdeg
    | some dd =>
      rw [upLoopLeaves_cons hdeg] at h
      have hdeg' : outDegAt (.node d cs) (rest ++ [j]) = some dd := by
        rw [outDegAt_append hc d rest, hdeg]
      rw [show (j' :: rest) ++ [j] = j' :: (rest ++ [j]) from rfl,
        upLoopLeaves_cons hdeg']
      by_cases hlt : j' < dd - 1
      · simp [hlt] at h
      · rw [if_neg hlt] at h
        rw [if_neg hlt]
        exact ih hvrest h

/-- `succLeaf` on a position that ends the walk. -/
theorem succLeaf_of_upLoop_none {t : RTree} {pos : List Nat}
    (h : upLoopLeaves t pos = none) : succLeaf t pos = none := by
  simp [succLeaf, h]

/-- Lifting a successful in-child leaf successor to the whole tree. -/
theorem succLeaf_append_some {cs : List RTree} {c : RTree} {j : Nat}
    (hc : cs.get? j = some c) (d : Nat) {pos q : List Nat}
    (h : succLeaf c pos = some q) :
    succLeaf (.node d cs) (pos ++ [j]) = some (q ++ [j]) := by
  cases hup : upLoopLeaves c pos with
  | none => rw [succLeaf_of_upLoop_none hup] at h; exact absurd h (by simp)
  | some r =>
    cases r with
    | nil => simp [succLeaf, hup] at h
    | cons j' rest =>
      simp only [succLeaf, hup] at h
      cases hsub : subtreeAt c rest with
      | none => simp [hsub] at h
      | some pnode =>
        simp only [hsub] at h
        cases hsib : (childrenOf pnode).get? (j' + 1) with
        | none =>
          rw [List.get?_eq_getElem?] at hsib
          simp [hsib] at h
        | some sib =>
          have hsib2 := hsib
          rw [List.get?_eq_getElem?] at hsib2
          simp only [hsib, hsib2, Option.some_inj] at h
          have hup' := upLoopLeaves_append_some hc d pos (j' :: rest) hup
          have hsub' : subtreeAt (.node d cs) (rest ++ [j]) = some pnode := by
            rw [subtreeAt_append hc d rest, hsub]
          have hstep : succLeaf (.node d cs) (pos ++ [j])
              = some (leftmostLeafPos sib ((j' + 1) :: (rest ++ [j]))) := by
            simp only [succLeaf, hup', List.cons_append, hsub', hsib]
          rw [hstep, leftmostLeafPos_acc sib ((j' + 1) :: (rest ++ [j])),
            ← h, leftmostLeafPos_acc sib ((j' + 1) :: rest)]
          simp

/-- The successor of the last leaf of child `j`, seen from the whole tree:
the leftmost leaf of the next sibling if there is one, else none. -/
theorem succLeaf_last_of_child {cs : List RTree} {c : RTree} {j : Nat}
    (hc : cs.get? j = some c) (d : Nat) {pos : List Nat}
    (hv : (subtreeAt c pos).isSome) (h : upLoopLeaves c pos = none) :
    succLeaf (.node d cs) (pos ++ [j]) =
      match cs.get? (j + 1) with
      | some sib => some (leftmostLeafPos sib [] ++ [j + 1])
      | none => none := by
  have hup := upLoopLeaves_append_none hc d pos hv h
  have hjlen : j < cs.length := List.get?_eq_some.mp hc |>.1
  by_cases hlt : j < cs.length - 1
  · rw [if_pos hlt] at hup
    have hsib : ∃ sib, cs.get? (j + 1) = some sib := by
      have : j + 1 < cs.length := by omega
      exact ⟨cs.get ⟨j + 1, this⟩, List.get?_eq_get this⟩
    obtain ⟨sib, hsib⟩ := hsib
    simp only [succLeaf, hup, hsib]
    have hroot : subtreeAt (RTree.node d cs) ([] : List Nat) = some (.node d cs) := rfl
    simp only [hroot, childrenOf, hsib]
    rw [leftmostLeafPos_acc sib [j + 1]]
  · rw [if_neg hlt] at hup
    have hnone : cs.get? (j + 1) = none := by
      apply List.get?_eq_none.mpr
      omega
    simp only [succLeaf_of_upLoop_none hup, hnone]

/-- `getLast?` commutes with `map`. -/
theorem getLast?_map_eq {α β : Type} (f : α → β) :
    ∀ l : List α, (l.map f).getLast? = (l.getLast?).map f := by
  intro l
  induction l with
  | nil => rfl
  | cons a l ih =>
    cases l with
    | nil => rfl
    | cons b l' =>
      simp only [List.map_cons, List.getLast?_cons_cons]
      simpa using ih

/-- An element produced by `getLast?` is a member. -/
theorem mem_of_getLast?_eq {α : Type} {l : List α} {a : α}
    (h : l.getLast? = some a) : a ∈ l := by
  induction l with
  | nil => simp at h
  | cons b l ih =>
    cases l with
    | nil => simp only [List.getLast?_singleton, Option.some_inj] at h; simp [h]
    | cons c l' =>
      rw [List.getLast?_cons_cons] at h
      exact List.mem_cons_of_mem b (ih h)

/-- The bundle of facts about `leavesPos` proved by simultaneous induction:
it is nonempty, starts at the leftmost leaf, consecutive entries are linked
by `succLeaf`, the upward search from the last leaf ends the walk, and every
entry resolves to a leaf. -/
def LeavesSpec (t : RTree) : Prop :=
  leavesPos t ≠ []
  ∧ (leavesPos t).head? = some (leftmostLeafPos t [])
  ∧ List.Chain' (fun p q => succLeaf t p = some q) (leavesPos t)
  ∧ (∀ p, (leavesPos t).getLast? = some p → upLoopLeaves t p = none)
  ∧ (∀ p ∈ leavesPos t, ∃ s, subtreeAt t p = some s ∧ childrenOf s = [])

/-- The block decomposition of `leavesPosList`: properties of the leaf
positions contributed by the child-list suffix `cs` starting at index
`off` of the full child list `csAll`, relative to the whole tree
`node d csAll`. -/
theorem leavesPosList_props (d : Nat) (csAll : List RTree) :
    ∀ (cs : List RTree) (off : Nat),
      (∀ k, cs.get? k = csAll.get? (off + k)) →
      (∀ c ∈ cs, LeavesSpec c) →
      (cs ≠ [] → leavesPosList off cs ≠ [])
      ∧ (∀ c0 cs', cs = c0 :: cs' →
          (leavesPosList off cs).head? = some (leftmostLeafPos c0 [] ++ [off]))
      ∧ List.Chain' (fun p q => succLeaf (.node d csAll) p = some q) (leavesPosList off cs)
      ∧ (∀ p, (leavesPosList off cs).getLast? = some p →
          upLoopLeaves (.node d csAll) p =
            if off + cs.length - 1 < csAll.length - 1 then some [off + cs.length - 1] else none)
      ∧ (∀ p ∈ leavesPosList off cs,
          ∃ s, subtreeAt (.node d csAll) p = some s ∧ childrenOf s = []) := by
  intro cs
  induction cs with
  | nil =>
    intro off _ _
    refine ⟨fun h => absurd rfl h, ?_, ?_, ?_, ?_⟩
    · intro c0 cs' h; exact absurd h (by simp)
    · simp [leavesPosList]
    · intro p hp; simp [leavesPosList] at hp
    · intro p hp; simp [leavesPosList] at hp
  | cons c cs' ih =>
    intro off hk hcs
    have hc : csAll.get? off = some c := by
      have h0 := hk 0
      simp only [List.get?_cons_zero, Nat.add_zero] at h0
      exact h0.symm
    have hSpec := hcs c (List.mem_cons_self c cs')
    obtain ⟨hne, hhead, hchain, hlastUp, hleaf⟩ := hSpec
    have hk' : ∀ k, cs'.get? k = csAll.get? (off + 1 + k) := by
      intro k
      have hkk := hk (k + 1)
      rw [List.get?_cons_succ] at hkk
      rw [hkk]
      congr 1
      omega
    have hcs' : ∀ c' ∈ cs', LeavesSpec c' := fun c' hc' => hcs c' (List.mem_cons_of_mem c hc')
    obtain ⟨ih1, ih2, ih3, ih4, ih5⟩ := ih (off + 1) hk' hcs'
    have hL : leavesPosList off (c :: cs')
        = (leavesPos c).map (· ++ [off]) ++ leavesPosList (off + 1) cs' := by
      simp only [leavesPosList]
    -- the last position of the block of `c`
    have hlastB : ∀ p, ((leavesPos c).map (· ++ [off])).getLast? = some p →
        ∃ q, (leavesPos c).getLast? = some q ∧ p = q ++ [off] := by
      intro p hp
      rw [getLast?_map_eq] at hp
      cases hq : (leavesPos c).getLast? with
      | none => rw [hq] at hp; simp at hp
      | some q =>
        rw [hq] at hp
        simp only [Option.map_some', Option.some_inj] at hp
        exact ⟨q, rfl, hp.symm⟩
    have hBne : (leavesPos c).map (· ++ [off]) ≠ [] := by
      intro h
      exact hne (List.map_eq_nil_iff.mp h)
    -- validity of the last leaf position of `c`
    have hlastValid : ∀ q, (leavesPos c).getLast? = some q → (subtreeAt c q).isSome := by
      intro q hq
      obtain ⟨s, hs, _⟩ := hleaf q (mem_of_getLast?_eq hq)
      simp [hs]
    refine ⟨?_, ?_, ?_, ?_, ?_⟩
    · intro _
      rw [hL]
      intro h
      exact hBne (List.append_eq_nil.mp h).1
    · intro c0 cs'' hEq
      injection hEq with h1 h2
      subst h1
      rw [hL, List.head?_append_of_ne_nil _ hBne]
      cases hlv : leavesPos c with
      | nil => exact absurd hlv hne
      | cons a rest =>
        rw [hlv] at hhead
        simp only [List.head?_cons, Option.some_inj] at hhead
        simp [hlv, hhead]
    · rw [hL]
      apply List.Chain'.append
      · exact List.chain'_map_of_chain' (fun p => p ++ [off])
          (fun p q h => succLeaf_append_some hc d h) hchain
      · exact ih3
      · intro x hx y hy
        obtain ⟨q, hq, hxq⟩ := hlastB x hx
        subst hxq
        cases cs' with
        | nil => simp [leavesPosList] at hy
        | cons c' rest' =>
          have hc' : csAll.get? (off + 1) = some c' := by
            have h0 := hk' 0
            simp only [List.get?_cons_zero, Nat.add_zero] at h0
            exact h0.symm
          rw [ih2 c' rest' rfl] at hy
          simp only [Option.mem_def, Option.some_inj] at hy
          subst hy
          have hlink := succLeaf_last_of_child hc d (hlastValid q hq) (hlastUp q hq)
          rw [hlink, hc']
    · intro p hp
      rw [hL] at hp
      cases cs' with
      | nil =>
        simp only [leavesPosList, List.append_nil] at hp
        obtain ⟨q, hq, hqp⟩ := hlastB p hp
        subst hqp
        rw [upLoopLeaves_append_none hc d q (hlastValid q hq) (hlastUp q hq)]
        simp
      | cons c' rest' =>
        have hRne : leavesPosList (off + 1) (c' :: rest') ≠ [] := ih1 (by simp)
        rw [List.getLast?_append_of_ne_nil _ hRne] at hp
        have h4 := ih4 p hp
        rw [h4]
        have harith : off + 1 + (c' :: rest').length - 1 = off + (c :: c' :: rest').length - 1 := by
          simp only [List.length_cons]
          omega
        rw [harith]
    · intro p hp
      rw [hL, List.mem_append] at hp
      cases hp with
      | inl hp =>
        obtain ⟨q, hq, hqp⟩ := List.mem_map.mp hp
        subst hqp
        obtain ⟨s, hs, hsleaf⟩ := hleaf q hq
        exact ⟨s, by rw [subtreeAt_append hc d q, hs], hsleaf⟩
      | inr hp => exact ih5 p hp

/-- `leavesPos` satisfies its specification bundle on every tree. -/
theorem leavesPos_spec : ∀ t, LeavesSpec t := by
  intro t
  induction t using RTree.myInduction with
  | h d cs ih =>
    cases cs with
    | nil =>
      have hLp : leavesPos (.node d []) = [[]] := by simp only [leavesPos]
      refine ⟨by rw [hLp]; simp, ?_, by rw [hLp]; simp, ?_, ?_⟩
      · rw [hLp]
        rfl
      · intro p hp
        rw [hLp] at hp
        simp only [List.getLast?_singleton, Option.some_inj] at hp
        subst hp
        rfl
      · intro p hp
        rw [hLp] at hp
        simp only [List.mem_singleton] at hp
        subst hp
        exact ⟨.node d [], rfl, rfl⟩
    | cons c cs' =>
      have hk : ∀ k, (c :: cs').get? k = (c :: cs').get? (0 + k) := by
        intro k
        rw [Nat.zero_add]
      obtain ⟨h1, h2, h3, h4, h5⟩ := leavesPosList_props d (c :: cs') (c :: cs') 0 hk ih
      have hLp : leavesPos (.node d (c :: cs')) = leavesPosList 0 (c :: cs') := by
        simp only [leavesPos]
      refine ⟨?_, ?_, ?_, ?_, ?_⟩
      · rw [hLp]
        exact h1 (by simp)
      · rw [hLp, h2 c cs' rfl]
        rw [show leftmostLeafPos (.node d (c :: cs')) [] = leftmostLeafPos c [0] from rfl,
          leftmostLeafPos_acc c [0]]
      · rw [hLp]
        exact h3
      · intro p hp
        rw [hLp] at hp
        rw [h4 p hp]
        simp
      · intro p hp
        rw [hLp] at hp
        exact h5 p hp

/-- Driving the iterator along a `succLeaf`-linked list of positions yields
exactly that list. -/
theorem runLeaves_of_chain : ∀ (ps : List (List Nat)) (t : RTree) (fuel : Nat) (it : TreeIter),
    List.Chain' (fun p q => succLeaf t p = some q) ps →
    (∀ p, ps.getLast? = some p → succLeaf t p = none) →
    it.next = ps.head? →
    ps.length ≤ fuel →
    runLeaves t fuel it = some ps := by
  intro ps
  induction ps with
  | nil =>
    intro t fuel it _ _ hnext _
    cases fuel with
    | zero => simp [runLeaves, tree_iter_has_next, hnext]
    | succ f => simp [runLeaves, hnext]
  | cons p rest ih =>
    intro t fuel it hchain hlast hnext hlen
    cases fuel with
    | zero => simp at hlen
    | succ f =>
      simp only [List.head?_cons] at hnext
      have hnext' : (tree_iter_leaves_next t it).1.next = rest.head? := by
        simp only [tree_iter_leaves_next, hnext]
        cases rest with
        | nil =>
          have hl := hlast p (by simp)
          simp [hl]
        | cons q rest' =>
          have hpq : succLeaf t p = some q := (List.chain'_cons.mp hchain).1
          simp [hpq]
      have hrest : runLeaves t f (tree_iter_leaves_next t it).1 = some rest := by
        apply ih t f _ (List.Chain'.tail hchain) _ hnext' (by simpa using hlen)
        intro x hx
        apply hlast
        cases rest with
        | nil => simp at hx
        | cons q rest' => rw [List.getLast?_cons_cons]; exact hx
      simp only [runLeaves, hnext, hrest]

/-- The leaf positions are exactly the preorder positions that are leaves:
block version over a child-list suffix. -/
theorem leavesPosList_eq_filter (d : Nat) (csAll : List RTree) :
    ∀ (cs : List RTree) (off : Nat),
      (∀ k, cs.get? k = csAll.get? (off + k)) →
      (∀ c ∈ cs, leavesPos c = (preorderPos c).filter (fun p => isLeafAt c p)) →
      leavesPosList off cs
        = (preorderPosList off cs).filter (fun p => isLeafAt (.node d csAll) p) := by
  intro cs
  induction cs with
  | nil => intro off _ _; simp [leavesPosList, preorderPosList]
  | cons c cs' ih =>
    intro off hk hcs
    have hc : csAll.get? off = some c := by
      have h0 := hk 0
      simp only [List.get?_cons_zero, Nat.add_zero] at h0
      exact h0.symm
    have hk' : ∀ k, cs'.get? k = csAll.get? (off + 1 + k) := by
      intro k
      have hkk := hk (k + 1)
      rw [List.get?_cons_succ] at hkk
      rw [hkk]
      congr 1
      omega
    have hL : leavesPosList off (c :: cs')
        = (leavesPos c).map (· ++ [off]) ++ leavesPosList (off + 1) cs' := by
      simp only [leavesPosList]
    have hP : preorderPosList off (c :: cs')
        = (preorderPos c).map (· ++ [off]) ++ preorderPosList (off + 1) cs' := by
      simp only [preorderPosList]
    rw [hL, hP, List.filter_append]
    congr 1
    · rw [hcs c (List.mem_cons_self c cs')]
      rw [List.filter_map]
      congr 1
      apply List.filter_congr
      intro q _
      simp only [Function.comp_apply]
      rw [isLeafAt_append hc d q]
    · exact ih (off + 1) hk' (fun c' hc' => hcs c' (List.mem_cons_of_mem c hc'))

/-- The leaf positions are exactly the preorder positions that are leaves. -/
theorem leavesPos_eq_filter : ∀ t : RTree,
    leavesPos t = (preorderPos t).filter (fun p => isLeafAt t p) := by
  intro t
  induction t using RTree.myInduction with
  | h d cs ih =>
    cases cs with
    | nil =>
      simp only [leavesPos, preorderPos, preorderPosList]
      have : isLeafAt (.node d []) [] = true := rfl
      simp [this]
    | cons c cs' =>
      have hroot : isLeafAt (.node d (c :: cs')) [] = false := by
        simp [isLeafAt, outDegAt, subtreeAt, subtreeAtRev, childrenOf]
      have hk : ∀ k, (c :: cs').get? k = (c :: cs').get? (0 + k) := by
        intro k
        rw [Nat.zero_add]
      have hblock := leavesPosList_eq_filter d (c :: cs') (c :: cs') 0 hk ih
      simp only [leavesPos, preorderPos]
      rw [List.filter_cons, hroot]
      simpa using hblock

/-- `countLeaves` counts the entries of `leavesPos`: block version. -/
theorem countLeavesList_eq_length :
    ∀ (cs : List RTree),
      (∀ c ∈ cs, countLeaves c = (leavesPos c).length) →
      ∀ (off : Nat), countLeavesList cs = (leavesPosList off cs).length := by
  intro cs
  induction cs with
  | nil => intro _ off; simp [countLeavesList, leavesPosList]
  | cons c cs' ih =>
    intro hcs off
    have hL : leavesPosList off (c :: cs')
        = (leavesPos c).map (· ++ [off]) ++ leavesPosList (off + 1) cs' := by
      simp only [leavesPosList]
    have hC : countLeavesList (c :: cs') = countLeaves c + countLeavesList cs' := by
      simp only [countLeavesList]
    rw [hC, hL, List.length_append, List.length_map,
      hcs c (List.mem_cons_self c cs'),
      ih (fun c' hc' => hcs c' (List.mem_cons_of_mem c hc')) (off + 1)]

/-- `countLeaves` counts the entries of `leavesPos`. -/
theorem countLeaves_eq_length : ∀ t : RTree, countLeaves t = (leavesPos t).length := by
  intro t
  induction t using RTree.myInduction with
  | h d cs ih =>
    cases cs with
    | nil => simp [countLeaves, leavesPos]
    | cons c cs' =>
      have h1 : countLeaves (.node d (c :: cs')) = countLeavesList (c :: cs') := by
        simp only [countLeaves]
      have h2 : leavesPos (.node d (c :: cs')) = leavesPosList 0 (c :: cs') := by
        simp only [leavesPos]
      rw [h1, h2, countLeavesList_eq_length (c :: cs') ih 0]

/-- **C9**.  Starting the leaves iterator with `tree_iter_leaves_first` on a
fresh iterator and advancing until `has_next` fails yields exactly the
positions of the leaves of `t` — the preorder positions satisfying
`tree_is_leaf`, in left-to-right sibling order — visiting `countLeaves t`
nodes, each of them a leaf. -/
theorem leaves_iteration_visits_exactly_the_leaves : ∀ t : RTree,
    runLeaves t (countLeaves t) (tree_iter_leaves_first t tree_iter_alloc)
      = some ((preorderPos t).filter (fun p => isLeafAt t p))
    ∧ ((preorderPos t).filter (fun p => isLeafAt t p)).length = countLeaves t
    ∧ (∀ p ∈ (preorderPos t).filter (fun p => isLeafAt t p), isLeafAt t p = true) := by
  intro t
  obtain ⟨hne, hhead, hchain, hlastUp, _⟩ := leavesPos_spec t
  have hrun : runLeaves t (countLeaves t) (tree_iter_leaves_first t tree_iter_alloc)
      = some (leavesPos t) := by
    apply runLeaves_of_chain (leavesPos t) t (countLeaves t) _ hchain
    · intro p hp
      exact succLeaf_of_upLoop_none (hlastUp p hp)
    · rw [hhead]
      rfl
    · rw [countLeaves_eq_length t]
  refine ⟨?_, ?_, ?_⟩
  · rw [hrun, leavesPos_eq_filter t]
  · rw [← leavesPos_eq_filter t, countLeaves_eq_length t]
  · intro p hp
    exact (List.mem_filter.mp hp).2

/-! ## Arena infrastructure: footprint and shape lemmas for the mutators -/

/-- Two arenas with the same shape: every address holds a record with the
same parent, children and index (only `data`/`h` may differ — in fact only
`h`, but this is all the invariants need). -/
def sameShape (σ σ' : Arena) : Prop :=
  ∀ x, (σ' x).map (fun nd => (nd.parent, nd.children, nd.i))
      = (σ x).map (fun nd => (nd.parent, nd.children, nd.i))

theorem sameShape_refl (σ : Arena) : sameShape σ σ := fun _ => rfl

theorem sameShape_trans {σ₁ σ₂ σ₃ : Arena}
    (h₁ : sameShape σ₁ σ₂) (h₂ : sameShape σ₂ σ₃) : sameShape σ₁ σ₃ :=
  fun x => (h₂ x).trans (h₁ x)

/-- `tree_update_height` only rewrites cached heights. -/
theorem tree_update_height_sameShape :
    ∀ (fuel : Nat) (σ : Arena) (o : Option Nat) (σ' : Arena),
      tree_update_height fuel σ o = some σ' → sameShape σ σ' := by
  intro fuel
  induction fuel with
  | zero =>
    intro σ o σ' h
    cases o with
    | none => simp only [tree_update_height, Option.some_inj] at h; subst h; exact sameShape_refl σ
    | some n => simp [tree_update_height] at h
  | succ f ih =>
    intro σ o σ' h
    cases o with
    | none => simp only [tree_update_height, Option.some_inj] at h; subst h; exact sameShape_refl σ
    | some n =>
      simp only [tree_update_height] at h
      cases hn : σ n with
      | none => simp only [hn] at h; exact Option.noConfusion h
      | some nn =>
        simp only [hn] at h
        cases hmax : maxChildH σ nn.children with
        | none => simp only [hmax] at h; exact Option.noConfusion h
        | some hm =>
          simp only [hmax] at h
          have hstep : sameShape σ (upd σ n { nn with h := hm }) := by
            intro x
            by_cases hx : x = n
            · subst hx; simp [upd, hn]
            · simp [upd, hx]
          exact sameShape_trans hstep (ih _ _ _ h)

/-- A shape-preserving change of arena preserves the child-list invariant
structure (used after height recomputation). -/
theorem sameShape_lookup {σ σ' : Arena} (h : sameShape σ σ') {x : Nat} {nd' : TreeNode}
    (hx : σ' x = some nd') :
    ∃ nd, σ x = some nd ∧ nd.parent = nd'.parent ∧ nd.children = nd'.children ∧ nd.i = nd'.i := by
  have := h x
  rw [hx] at this
  cases hsx : σ x with
  | none => rw [hsx] at this; simp at this
  | some nd =>
    rw [hsx] at this
    simp only [Option.map_some', Option.some_inj, Prod.mk.injEq] at this
    exact ⟨nd, rfl, this.1.symm, this.2.1.symm, this.2.2.symm⟩

/-- Same-shape in the forward direction. -/
theorem sameShape_lookup' {σ σ' : Arena} (h : sameShape σ σ') {x : Nat} {nd : TreeNode}
    (hx : σ x = some nd) :
    ∃ nd', σ' x = some nd' ∧ nd'.parent = nd.parent ∧ nd'.children = nd.children ∧ nd'.i = nd.i := by
  have := h x
  rw [hx] at this
  cases hsx : σ' x with
  | none => rw [hsx] at this; simp at this
  | some nd' =>
    rw [hsx] at this
    simp only [Option.map_some', Option.some_inj, Prod.mk.injEq] at this
    exact ⟨nd', rfl, this.1, this.2.1, this.2.2⟩

/-- The ancestor chain only depends on the parent fields of its own
elements. -/
theorem hChain_congr {σ σ₂ : Arena} :
    ∀ (fuel : Nat) (o : Option Nat),
      (∀ x ∈ hChain fuel σ o, (σ₂ x).map (·.parent) = (σ x).map (·.parent)) →
      hChain fuel σ₂ o = hChain fuel σ o := by
  intro fuel
  induction fuel with
  | zero => intro o _; cases o <;> rfl
  | succ f ih =>
    intro o hagree
    cases o with
    | none => rfl
    | some n =>
      have hn : (σ₂ n).map (·.parent) = (σ n).map (·.parent) := by
        apply hagree
        simp [hChain]
      cases hσn : σ n with
      | none =>
        cases hσ2n : σ₂ n with
        | none => simp [hChain, hσn, hσ2n]
        | some nn2 => rw [hσn, hσ2n] at hn; simp at hn
      | some nn =>
        cases hσ2n : σ₂ n with
        | none => rw [hσn, hσ2n] at hn; simp at hn
        | some nn2 =>
          rw [hσn, hσ2n] at hn
          simp only [Option.map_some', Option.some_inj] at hn
          simp only [hChain, hσn, hσ2n, hn]
          congr 1
          apply ih
          intro x hx
          apply hagree
          simp only [hChain, hσn]
          exact List.mem_cons_of_mem n hx

/-- `tree_update_height` writes only the records of its ancestor chain. -/
theorem tree_update_height_frame :
    ∀ (fuel : Nat) (σ : Arena) (o : Option Nat) (σ' : Arena),
      tree_update_height fuel σ o = some σ' →
      ∀ x, x ∉ hChain fuel σ o → σ' x = σ x := by
  intro fuel
  induction fuel with
  | zero =>
    intro σ o σ' h x _
    cases o with
    | none => simp only [tree_update_height, Option.some_inj] at h; subst h; rfl
    | some n => simp [tree_update_height] at h
  | succ f ih =>
    intro σ o σ' h x hx
    cases o with
    | none => simp only [tree_update_height, Option.some_inj] at h; subst h; rfl
    | some n =>
      simp only [tree_update_height] at h
      cases hn : σ n with
      | none => simp only [hn] at h; exact Option.noConfusion h
      | some nn =>
        simp only [hn] at h
        cases hmax : maxChildH σ nn.children with
        | none => simp only [hmax] at h; exact Option.noConfusion h
        | some hm =>
          simp only [hmax] at h
          simp only [hChain, hn] at hx
          have hxn : x ≠ n := fun he => hx (he ▸ List.mem_cons_self n _)
          have hxchain : x ∉ hChain f σ nn.parent := fun hm => hx (List.mem_cons_of_mem n hm)
          have hchainEq : hChain f (upd σ n { nn with h := hm }) nn.parent
              = hChain f σ nn.parent := by
            apply hChain_congr
            intro y hy
            by_cases hyn : y = n
            · subst hyn; simp [upd, hn]
            · simp [upd, hyn]
          have := ih _ _ _ h x (by rw [hchainEq]; exact hxchain)
          rw [this, upd_other _ _ _ _ hxn]

/-- Shape equality restricted to the parent fields. -/
theorem sameShape_parentMap {σ σ' : Arena} (h : sameShape σ σ') :
    ∀ x, (σ' x).map (·.parent) = (σ x).map (·.parent) := by
  intro x
  have hx := h x
  cases hσ : σ x <;> cases hσ' : σ' x <;> rw [hσ, hσ'] at hx <;> simp_all

/-- `findIdx` of the freshly appended last element. -/
theorem findIdx_append_self {cs : List Nat} {t : Nat} (h : t ∉ cs) :
    (cs ++ [t]).findIdx (· = t) = cs.length := by
  induction cs with
  | nil => simp [List.findIdx_cons]
  | cons a cs ih =>
    have hat : ¬(a = t) := fun he => h (he ▸ List.mem_cons_self a cs)
    simp only [List.cons_append, List.findIdx_cons, List.length_cons]
    rw [show (decide (a = t)) = false by simp [hat]]
    simp only [cond_false]
    rw [ih (fun hm => h (List.mem_cons_of_mem a hm))]

/-- Erasing the freshly appended last element restores the list. -/
theorem eraseIdx_append_last (cs : List Nat) (t : Nat) :
    (cs ++ [t]).eraseIdx cs.length = cs := by
  induction cs with
  | nil => rfl
  | cons a cs ih => simp only [List.cons_append, List.length_cons, List.eraseIdx_cons_succ, ih]

/-- **C7**.  Attaching a rootless subtree `t` under `n` with
`tree_add_subtree` and then detaching it again with `tree_remove` restores
every node of `t`'s subtree — `t` itself included — to exactly its state
before the attach (so `t` is again rootless with index 0 and unchanged
structure and values).  The hypotheses say that `t` and `n` are live, `t` is
rootless with index 0 and not already among `n`'s children, and that `t`'s
subtree is disjoint from `n` and from `n`'s ancestor chain (as is the case
whenever both are parts of well-formed trees), and that both operations
succeeded. -/
theorem attach_detach_roundtrip
    (σ : Arena) (n t : Nat) (fuel k : Nat) (σatt σfin : Arena)
    (nn tn : TreeNode)
    (hn : σ n = some nn) (ht : σ t = some tn)
    (htparent : tn.parent = none) (hti : tn.i = 0)
    (htnotin : t ∉ nn.children)
    (hdisj : ∀ x ∈ subtreeIds k σ t, x ≠ n ∧ x ∉ hChain fuel σ (some n))
    (hatt : tree_add_subtree fuel σ n (some t) = some (none, σatt))
    (hdet : tree_remove fuel σatt t = some σfin) :
    ∀ x ∈ subtreeIds k σ t, σfin x = σ x := by
  intro x hx
  -- `t` is in its own subtree list, so the disjointness applies to it
  have hk1 : ∃ k', k = k' + 1 := by
    cases k with
    | zero => simp [subtreeIds] at hx
    | succ k' => exact ⟨k', rfl⟩
  obtain ⟨k', hk⟩ := hk1
  have htmem : t ∈ subtreeIds k σ t := by
    subst hk
    simp [subtreeIds]
  have htn : t ≠ n := (hdisj t htmem).1
  have htchain : t ∉ hChain fuel σ (some n) := (hdisj t htmem).2
  -- unfold the attach
  set σ₁ : Arena := upd σ n { nn with children := nn.children ++ [t] } with hσ₁
  have hσ₁t : σ₁ t = some tn := by rw [hσ₁, upd_other _ _ _ _ htn, ht]
  set tn₂ : TreeNode := { tn with parent := some n, i := nn.children.length } with htn₂
  set σ₂ : Arena := upd σ₁ t tn₂ with hσ₂
  have hatt' : tree_add_subtree fuel σ n (some t) =
      match tree_update_height fuel σ₂ (some n) with
      | none => none
      | some σ₃ => some (none, σ₃) := by
    simp only [tree_add_subtree, ht, htparent, hn]
    rw [← hσ₁]
    simp only [hσ₁t]
  rw [hatt'] at hatt
  cases huh : tree_update_height fuel σ₂ (some n) with
  | none => rw [huh] at hatt; exact Option.noConfusion hatt
  | some σa =>
    rw [huh] at hatt
    simp only [Option.some_inj, Prod.mk.injEq, true_and] at hatt
    subst hatt
    -- parent fields of σ₂ agree with σ everywhere except at t
    have hparents₂ : ∀ y, y ≠ t → (σ₂ y).map (·.parent) = (σ y).map (·.parent) := by
      intro y hyt
      rw [hσ₂, upd_other _ _ _ _ hyt]
      by_cases hyn : y = n
      · subst hyn; rw [hσ₁, upd_same, hn]; rfl
      · rw [hσ₁, upd_other _ _ _ _ hyn]
    have hchain₂ : hChain fuel σ₂ (some n) = hChain fuel σ (some n) := by
      apply hChain_congr
      intro y hy
      exact hparents₂ y (fun he => htchain (he ▸ hy))
    -- after the attach: `t`'s record, `n`'s record
    have hshape := tree_update_height_sameShape fuel σ₂ (some n) σa huh
    have hframe₂ := tree_update_height_frame fuel σ₂ (some n) σa huh
    have hσa_t : σa t = some tn₂ := by
      rw [hframe₂ t (by rw [hchain₂]; exact htchain), hσ₂, upd_same]
    have hσ₂n : σ₂ n = some { nn with children := nn.children ++ [t] } := by
      rw [hσ₂, upd_other _ _ _ _ (fun he => htn he.symm), hσ₁, upd_same]
    obtain ⟨nn₃, hσan, hnn₃p, hnn₃c, hnn₃i⟩ := sameShape_lookup' hshape hσ₂n
    -- unfold the detach
    have hremchild : tree_node_remove_child σa t
        = some (upd σa n { nn₃ with children := nn.children }) := by
      have hfind : (nn₃.children).findIdx (· = t) = nn.children.length := by
        rw [hnn₃c]; exact findIdx_append_self htnotin
      have hlt : nn.children.length < nn₃.children.length := by
        rw [hnn₃c, List.length_append]; simp
      have herase : nn₃.children.eraseIdx (nn.children.length) = nn.children := by
        rw [hnn₃c]; exact eraseIdx_append_last nn.children t
      have hdrop : nn.children.drop (nn.children.length) = [] := List.drop_length _
      simp only [tree_node_remove_child, hσa_t, htn₂, hσan, hfind, hlt, if_true,
        herase, hdrop, setIndices, hσan]
    set σr1 : Arena := upd σa n { nn₃ with children := nn.children } with hσr1
    have hdet' : tree_remove fuel σa t =
        match tree_update_height fuel σr1 (some n) with
        | none => none
        | some σr2 =>
          match σr2 t with
          | none => none
          | some tnr => some (upd σr2 t { tnr with parent := none, i := 0 }) := by
      simp only [tree_remove, hσa_t, htn₂, hremchild, hσr1]
    rw [hdet'] at hdet
    -- chains in the removal phase are again the original chain
    have hparents_att : ∀ y, y ≠ t → (σa y).map (·.parent) = (σ y).map (·.parent) := by
      intro y hyt
      rw [sameShape_parentMap hshape y]
      exact hparents₂ y hyt
    have hparents_r1 : ∀ y, y ≠ t → (σr1 y).map (·.parent) = (σ y).map (·.parent) := by
      intro y hyt
      by_cases hyn : y = n
      · subst hyn
        rw [hσr1, upd_same, hn]
        simp only [Option.map_some']
        rw [hnn₃p]
      · rw [hσr1, upd_other _ _ _ _ hyn]
        exact hparents_att y hyt
    have hchain_r1 : hChain fuel σr1 (some n) = hChain fuel σ (some n) := by
      apply hChain_congr
      intro y hy
      exact hparents_r1 y (fun he => htchain (he ▸ hy))
    cases hur : tree_update_height fuel σr1 (some n) with
    | none => simp only [hur] at hdet; exact Option.noConfusion hdet
    | some σr2 =>
      simp only [hur] at hdet
      have hframe_r := tree_update_height_frame fuel σr1 (some n) σr2 hur
      have hchainT : t ∉ hChain fuel σr1 (some n) := by rw [hchain_r1]; exact htchain
      have hσr2t : σr2 t = some tn₂ := by
        rw [hframe_r t hchainT, hσr1, upd_other _ _ _ _ htn, hσa_t]
      simp only [hσr2t, Option.some_inj] at hdet
      subst hdet
      by_cases hxt : x = t
      · subst hxt
        rw [upd_same, ht]
        cases tn
        simp_all
      · have hxn : x ≠ n := (hdisj x hx).1
        have hxchain : x ∉ hChain fuel σ (some n) := (hdisj x hx).2
        rw [upd_other _ _ _ _ hxt,
          hframe_r x (by rw [hchain_r1]; exact hxchain),
          hσr1, upd_other _ _ _ _ hxn,
          hframe₂ x (by rw [hchain₂]; exact hxchain),
          hσ₂, upd_other _ _ _ _ hxt,
          hσ₁, upd_other _ _ _ _ hxn]

/-- Concrete heap for the round-trip witness: node 0 is a childless root,
node 1 a rootless subtree owning node 2. -/
def c7Arena : Arena :=
  fun x =>
    if x = 0 then some { parent := none, children := [], data := 1, i := 0, h := 0 }
    else if x = 1 then some { parent := none, children := [2], data := 2, i := 0, h := 0 }
    else if x = 2 then some { parent := some 1, children := [], data := 3, i := 0, h := 0 }
    else none

/-- The heap after attaching subtree 1 under node 0. -/
def c7att : Arena :=
  match tree_add_subtree 3 c7Arena 0 (some 1) with
  | some (_, σ) => σ
  | none => emptyArena

/-- The heap after detaching subtree 1 again. -/
def c7fin : Arena :=
  match tree_remove 3 c7att 1 with
  | some σ => σ
  | none => emptyArena

/-- Witness for C7: on the concrete heap, attaching subtree 1 under node 0
and detaching it restores the records of both subtree nodes exactly. -/
theorem attach_detach_roundtrip_witness :
    c7fin 1 = c7Arena 1 ∧ c7fin 2 = c7Arena 2 :=
  ⟨attach_detach_roundtrip c7Arena 0 1 3 2 c7att c7fin
      { parent := none, children := [], data := 1, i := 0, h := 0 }
      { parent := none, children := [2], data := 2, i := 0, h := 0 }
      rfl rfl rfl rfl (by decide) (by decide) rfl rfl 1 (by decide),
   attach_detach_roundtrip c7Arena 0 1 3 2 c7att c7fin
      { parent := none, children := [], data := 1, i := 0, h := 0 }
      { parent := none, children := [2], data := 2, i := 0, h := 0 }
      rfl rfl rfl rfl (by decide) (by decide) rfl rfl 2 (by decide)⟩

/-! ## The index invariant (C6) -/

/-- The child-list invariant: every entry of a child array is live, caches
its own position (`p.children[j]->i == j`), and points back to its parent.
The index consistency of the claim is the `cn.i = j` component; the other
two components are what makes it inductive. -/
def ChildWF (σ : Arena) : Prop :=
  ∀ p pn, σ p = some pn → ∀ j c, pn.children.get? j = some c →
    ∃ cn, σ c = some cn ∧ cn.i = j ∧ cn.parent = some p

/-- A node with no parent is in no child array. -/
theorem ChildWF.not_in_children {σ : Arena} (h : ChildWF σ) {t : Nat} {tn : TreeNode}
    (ht : σ t = some tn) (htp : tn.parent = none) {p : Nat} {pn : TreeNode}
    (hp : σ p = some pn) : t ∉ pn.children := by
  intro hmem
  obtain ⟨j, hj⟩ := List.get?_of_mem hmem
  obtain ⟨cn, hcn, _, hpar⟩ := h p pn hp j t hj
  rw [ht] at hcn
  cases hcn
  rw [htp] at hpar
  exact Option.noConfusion hpar

/-- Dead nodes are in no child array. -/
theorem ChildWF.dead_not_in_children {σ : Arena} (h : ChildWF σ) {t : Nat}
    (ht : σ t = none) {p : Nat} {pn : TreeNode}
    (hp : σ p = some pn) : t ∉ pn.children := by
  intro hmem
  obtain ⟨j, hj⟩ := List.get?_of_mem hmem
  obtain ⟨cn, hcn, _, _⟩ := h p pn hp j t hj
  rw [ht] at hcn
  exact Option.noConfusion hcn

/-- Two positions holding the same node coincide. -/
theorem ChildWF.get?_inj {σ : Arena} (h : ChildWF σ) {p : Nat} {pn : TreeNode}
    (hp : σ p = some pn) {j k c : Nat}
    (hj : pn.children.get? j = some c) (hk : pn.children.get? k = some c) : j = k := by
  obtain ⟨cn, hcn, hij, _⟩ := h p pn hp j c hj
  obtain ⟨cn', hcn', hik, _⟩ := h p pn hp k c hk
  rw [hcn] at hcn'
  cases hcn'
  rw [← hij, ← hik]

/-- Child arrays have no duplicates. -/
theorem ChildWF.children_nodup {σ : Arena} (h : ChildWF σ) {p : Nat} {pn : TreeNode}
    (hp : σ p = some pn) : pn.children.Nodup := by
  rw [List.nodup_iff_injective_get]
  intro a b hab
  have ha : pn.children.get? a.1 = some (pn.children.get a) := List.get?_eq_get a.2
  have hb : pn.children.get? b.1 = some (pn.children.get a) := by
    rw [hab]; exact List.get?_eq_get b.2
  exact Fin.ext (h.get?_inj hp ha hb)

/-- A node cannot sit in the child arrays of two different parents. -/
theorem ChildWF.parent_unique {σ : Arena} (h : ChildWF σ) {p q : Nat} {pn qn : TreeNode}
    (hp : σ p = some pn) (hq : σ q = some qn) {c : Nat}
    (hcp : c ∈ pn.children) (hcq : c ∈ qn.children) : p = q := by
  obtain ⟨j, hj⟩ := List.get?_of_mem hcp
  obtain ⟨k, hk⟩ := List.get?_of_mem hcq
  obtain ⟨cn, hcn, _, hparp⟩ := h p pn hp j c hj
  obtain ⟨cn', hcn', _, hparq⟩ := h q qn hq k c hk
  rw [hcn] at hcn'
  cases hcn'
  rw [hparp] at hparq
  exact Option.some_inj.mp hparq

/-- The invariant only concerns parents, children and indices, so it is
transported along shape-preserving changes (height recomputation). -/
theorem ChildWF.of_sameShape {σ σ' : Arena} (hs : sameShape σ σ') (h : ChildWF σ) :
    ChildWF σ' := by
  intro p pn' hp' j c hc
  obtain ⟨pn, hp, _, hch, _⟩ := sameShape_lookup hs hp'
  obtain ⟨cn, hcn, hcni, hcnp⟩ := h p pn hp j c (by rw [hch]; exact hc)
  obtain ⟨cn', hcn', hpar', _, hi'⟩ := sameShape_lookup' hs hcn
  exact ⟨cn', hcn', by rw [hi', hcni], by rw [hpar', hcnp]⟩

/-- Allocation of a fresh isolated node preserves the invariant. -/
theorem ChildWF.alloc {σ : Arena} (h : ChildWF σ) {id data : Nat} {σ₀ : Arena}
    (ha : tree_alloc σ id data = some σ₀) :
    ChildWF σ₀ ∧ σ id = none
      ∧ σ₀ = upd σ id { parent := none, children := [], data := data, i := 0, h := 0 } := by
  have hid : σ id = none := by
    cases hσid : σ id with
    | none => rfl
    | some _ => rw [tree_alloc, hσid] at ha; exact Option.noConfusion ha
  have hσ₀ : σ₀ = upd σ id { parent := none, children := [], data := data, i := 0, h := 0 } := by
    rw [tree_alloc, hid] at ha
    exact (Option.some_inj.mp ha).symm
  refine ⟨?_, hid, hσ₀⟩
  subst hσ₀
  intro p pn hp j c hc
  by_cases hpid : p = id
  · subst hpid
    rw [upd_same] at hp
    cases hp
    simp at hc
  · rw [upd_other _ _ _ _ hpid] at hp
    obtain ⟨cn, hcn, hcni, hcnp⟩ := h p pn hp j c hc
    have hcid : c ≠ id := by
      intro he
      rw [he, hid] at hcn
      exact Option.noConfusion hcn
    exact ⟨cn, by rw [upd_other _ _ _ _ hcid]; exact hcn, hcni, hcnp⟩

/-- The common append transformation of `tree_add_subtree`,
`tree_add_child` and the append branch of `tree_set_subtree`: a rootless
node `t` is appended to `n`'s child array and its parent/index set.  The
invariant is preserved (including in the degenerate `t = n` case the code
does not rule out). -/
theorem ChildWF.append_child {σ : Arena} (h : ChildWF σ) {n t : Nat} {nn tn tn₁ : TreeNode}
    (hn : σ n = some nn) (ht : σ t = some tn) (htp : tn.parent = none)
    (hσ₁t : upd σ n { nn with children := nn.children ++ [t] } t = some tn₁) :
    ChildWF (upd (upd σ n { nn with children := nn.children ++ [t] }) t
      { tn₁ with parent := some n, i := nn.children.length }) := by
  have hnotin : ∀ q qn, σ q = some qn → t ∉ qn.children :=
    fun q qn hq => h.not_in_children ht htp hq
  intro p pn hp j c hc
  by_cases hpt : p = t
  · have hpt2 : t = p := hpt.symm
    subst hpt2
    rw [upd_same] at hp
    cases hp
    by_cases htn : t = n
    · -- `t = n`: the appended node is its own parent
      subst htn
      rw [upd_same] at hσ₁t
      cases hσ₁t
      rcases Nat.lt_trichotomy j nn.children.length with hlt | heq | hgt
      · rw [List.get?_append hlt] at hc
        have hcnott : c ≠ t := fun he => hnotin t nn hn (he ▸ List.get?_mem hc)
        obtain ⟨cn, hcn, hcni, hcnp⟩ := h t nn hn j c hc
        refine ⟨cn, ?_, hcni, hcnp⟩
        rw [upd_other _ _ _ _ hcnott, upd_other _ _ _ _ hcnott]
        exact hcn
      · subst heq
        rw [List.get?_concat_length] at hc
        cases hc
        exact ⟨_, upd_same _ _ _, rfl, rfl⟩
      · have hnone : (nn.children ++ [t]).get? j = none := by
          apply List.get?_eq_none.mpr
          simp only [List.length_append, List.length_cons, List.length_nil]
          omega
        rw [hnone] at hc
        exact Option.noConfusion hc
    · -- `t ≠ n`: `t`'s own children keep their records
      rw [upd_other _ _ _ _ htn, ht] at hσ₁t
      cases hσ₁t
      obtain ⟨cn, hcn, hcni, hcnp⟩ := h t tn ht j c hc
      have hcnott : c ≠ t := by
        intro he
        subst he
        rw [ht] at hcn
        cases hcn
        rw [htp] at hcnp
        exact Option.noConfusion hcnp
      by_cases hcn' : c = n
      · subst hcn'
        rw [hn] at hcn
        cases hcn
        refine ⟨{ nn with children := nn.children ++ [t] }, ?_, hcni, hcnp⟩
        rw [upd_other _ _ _ _ hcnott, upd_same]
      · refine ⟨cn, ?_, hcni, hcnp⟩
        rw [upd_other _ _ _ _ hcnott, upd_other _ _ _ _ hcn']
        exact hcn
  · rw [upd_other _ _ _ _ hpt] at hp
    by_cases hpn : p = n
    · -- the parent getting the new child
      have hpn2 : n = p := hpn.symm
      subst hpn2
      rw [upd_same] at hp
      cases hp
      have htn : t ≠ n := fun he => hpt he.symm
      rcases Nat.lt_trichotomy j nn.children.length with hlt | heq | hgt
      · rw [List.get?_append hlt] at hc
        have hcnott : c ≠ t := fun he => hnotin n nn hn (he ▸ List.get?_mem hc)
        obtain ⟨cn, hcn, hcni, hcnp⟩ := h n nn hn j c hc
        by_cases hcn' : c = n
        · subst hcn'
          rw [hn] at hcn
          cases hcn
          refine ⟨{ nn with children := nn.children ++ [t] }, ?_, hcni, hcnp⟩
          rw [upd_other _ _ _ _ hcnott, upd_same]
        · refine ⟨cn, ?_, hcni, hcnp⟩
          rw [upd_other _ _ _ _ hcnott, upd_other _ _ _ _ hcn']
          exact hcn
      · subst heq
        rw [List.get?_concat_length] at hc
        cases hc
        exact ⟨_, upd_same _ _ _, rfl, rfl⟩
      · have hnone : (nn.children ++ [t]).get? j = none := by
          apply List.get?_eq_none.mpr
          simp only [List.length_append, List.length_cons, List.length_nil]
          omega
        rw [hnone] at hc
        exact Option.noConfusion hc
    · -- unrelated parents
      rw [upd_other _ _ _ _ hpn] at hp
      obtain ⟨cn, hcn, hcni, hcnp⟩ := h p pn hp j c hc
      have hcnott : c ≠ t := fun he => hnotin p pn hp (he ▸ List.get?_mem hc)
      by_cases hcn' : c = n
      · subst hcn'
        rw [hn] at hcn
        cases hcn
        refine ⟨{ nn with children := nn.children ++ [t] }, ?_, hcni, hcnp⟩
        rw [upd_other _ _ _ _ hcnott, upd_same]
      · refine ⟨cn, ?_, hcni, hcnp⟩
        rw [upd_other _ _ _ _ hcnott, upd_other _ _ _ _ hcn']
        exact hcn

/-- For `i = 0` the shift loop's unsigned guard `a >= 0` never fails, so the
loop can only end in undefined behaviour (or exhaust any bound). -/
theorem shiftLoop_zero_none : ∀ (fuel : Nat) (σ : Arena) (slots : List Nat) (a : Nat),
    shiftLoop fuel σ slots a 0 = none := by
  intro fuel
  induction fuel with
  | zero => intro σ slots a; rfl
  | succ f ih =>
    intro σ slots a
    simp only [shiftLoop, Nat.zero_le, ge_iff_le, if_true]
    cases hga : slots.get? a with
    | none => simp
    | some c =>
      cases hw : writeSlot slots (a + 1) c with
      | none => simp [hw]
      | some slots' =>
        cases hσc : σ c with
        | none => simp [hw, hσc]
        | some cn => simp [hw, hσc, ih]

/-- One body step of the shift loop on the slot list: copying slot `a` into
slot `a + 1`. -/
theorem writeSlot_shift {cs : List Nat} {a c : Nat}
    (ha : a < cs.length) (hc : cs.get? a = some c) :
    writeSlot (cs.take (a + 2) ++ cs.drop (a + 1)) (a + 1) c
      = some (cs.take (a + 1) ++ cs.drop a) := by
  have hdropa : cs.drop a = c :: cs.drop (a + 1) := by
    rw [List.drop_eq_get_cons ha]
    congr 1
    have := List.get?_eq_get ha
    rw [hc] at this
    exact (Option.some_inj.mp this).symm
  by_cases hlen : a + 1 < cs.length
  · have htk : cs.take (a + 2) = cs.take (a + 1) ++ [cs.get ⟨a + 1, hlen⟩] := by
      rw [← List.take_concat_get cs (a + 1) hlen]
      simp [List.concat_eq_append, List.get_eq_getElem]
    have hlen1 : (cs.take (a + 1)).length = a + 1 := by
      rw [List.length_take]
      omega
    have hslots : (cs.take (a + 2) ++ cs.drop (a + 1)).length = cs.length + 1 := by
      simp only [List.length_append, List.length_take, List.length_drop]
      omega
    rw [writeSlot, if_pos (by omega)]
    congr 1
    rw [htk, List.append_assoc]
    rw [List.set_append_right _ _ (by omega), hlen1]
    simp only [Nat.sub_self]
    rw [show (([cs.get ⟨a + 1, hlen⟩] ++ cs.drop (a + 1)).set 0 c) = c :: cs.drop (a + 1) by rfl]
    rw [hdropa]
  · have hlen' : cs.length = a + 1 := by omega
    have htk : cs.take (a + 2) = cs := List.take_of_length_le (by omega)
    have hdr : cs.drop (a + 1) = [] := List.drop_eq_nil_of_le (by omega)
    have htk1 : cs.take (a + 1) = cs := List.take_of_length_le (by omega)
    rw [htk, hdr, List.append_nil, writeSlot, if_neg (by omega), if_pos (by omega)]
    rw [htk1, hdropa, hdr]

/-- Reading slot `a` of the invariant slot list yields the original entry. -/
theorem slots_get_a {cs : List Nat} {a : Nat} (ha : a < cs.length) :
    (cs.take (a + 2) ++ cs.drop (a + 1)).get? a = cs.get? a := by
  rw [List.get?_append (by rw [List.length_take]; omega)]
  exact List.get?_take (by omega : a < a + 2)

/-- In a duplicate-free list, positions holding the same value coincide. -/
theorem nodup_get?_inj {l : List Nat} (hnd : l.Nodup) {x : Nat} {i j : Nat}
    (hi : l.get? i = some x) (hj : l.get? j = some x) : i = j := by
  have hi' : i < l.length := by
    by_contra hge
    rw [List.get?_eq_none.mpr (by omega)] at hi
    exact Option.noConfusion hi
  have hj' : j < l.length := by
    by_contra hge
    rw [List.get?_eq_none.mpr (by omega)] at hj
    exact Option.noConfusion hj
  rw [List.nodup_iff_injective_get] at hnd
  have hget : l.get ⟨i, hi'⟩ = l.get ⟨j, hj'⟩ := by
    have h1 := List.get?_eq_get hi'
    have h2 := List.get?_eq_get hj'
    rw [hi] at h1
    rw [hj] at h2
    exact Option.some_inj.mp (h1.symm.trans h2)
  exact Fin.mk.injEq i hi' j hj' ▸ congrArg Fin.val (hnd hget)

/-- Membership in a shorter prefix implies membership in a longer one. -/
theorem mem_take_mono {l : List Nat} {m n : Nat} (hmn : m ≤ n) {x : Nat}
    (hx : x ∈ l.take m) : x ∈ l.take n := by
  obtain ⟨k, hk⟩ := List.get?_of_mem hx
  have hklen : k < (l.take m).length := by
    by_contra hge
    rw [List.get?_eq_none.mpr (by omega)] at hk
    exact Option.noConfusion hk
  have hkm : k < m := by
    rw [List.length_take] at hklen
    omega
  rw [List.get?_take hkm] at hk
  exact List.get?_mem (by rw [List.get?_take (by omega : k < n)]; exact hk)

/-- Full characterisation of the shift loop run for `1 ≤ i`: starting from
the invariant slot state at counter `a`, it succeeds, produces the shifted
slot list, touches only the records of the moved children, and rewrites the
cached index of the child at position `b` to `b + 1`. -/
theorem shiftLoop_run : ∀ (m fuel : Nat) (σ : Arena) (cs : List Nat) (i a : Nat),
    1 ≤ i → a + 1 = i + m → a < cs.length → m + 1 ≤ fuel →
    (∀ c ∈ cs, ∃ cn, σ c = some cn) →
    ∃ σ',
      shiftLoop fuel σ (cs.take (a + 2) ++ cs.drop (a + 1)) a i
        = some (σ', cs.take (i + 1) ++ cs.drop i)
      ∧ (∀ x, x ∉ (cs.drop i).take (a + 1 - i) → σ' x = σ x)
      ∧ (cs.Nodup → ∀ b c, i ≤ b → b ≤ a → cs.get? b = some c →
          ∃ cn, σ c = some cn ∧ σ' c = some { cn with i := b + 1 }) := by
  intro m
  induction m with
  | zero =>
    intro fuel σ cs i a h1 hia ha hfuel hex
    have haeq : a = i - 1 := by omega
    cases fuel with
    | zero => omega
    | succ f =>
      have h2 : a + 2 = i + 1 := by omega
      have h3 : a + 1 = i := by omega
      refine ⟨σ, ?_, fun x _ => rfl, ?_⟩
      · rw [shiftLoop, if_neg (by omega), h2, h3]
      · intro _ b c hib hba _
        omega
  | succ m ih =>
    intro fuel σ cs i a h1 hia ha hfuel hex
    cases fuel with
    | zero => omega
    | succ f =>
      have hai : a ≥ i := by omega
      have hc0 : ∃ c0, cs.get? a = some c0 := by
        cases hg : cs.get? a with
        | none => rw [List.get?_eq_none] at hg; omega
        | some c0 => exact ⟨c0, rfl⟩
      obtain ⟨c0, hc0⟩ := hc0
      have hc0mem : c0 ∈ cs := List.get?_mem hc0
      obtain ⟨cn0, hcn0⟩ := hex c0 hc0mem
      have hwrite := writeSlot_shift ha hc0
      have hread := slots_get_a ha
      have hstep : shiftLoop (f + 1) σ (cs.take (a + 2) ++ cs.drop (a + 1)) a i
          = shiftLoop f (upd σ c0 { cn0 with i := a + 1 })
              (cs.take (a + 1) ++ cs.drop a) (a - 1) i := by
        rw [shiftLoop, if_pos hai]
        have hnz : ¬(a = 0) := by omega
        simp only [hread, hc0, hwrite, hcn0, hnz, if_false]
      have hex' : ∀ c ∈ cs, ∃ cn, upd σ c0 { cn0 with i := a + 1 } c = some cn := by
        intro c hcmem
        by_cases hcc0 : c = c0
        · subst hcc0; exact ⟨_, upd_same _ _ _⟩
        · obtain ⟨cn, hcn⟩ := hex c hcmem
          exact ⟨cn, by rw [upd_other _ _ _ _ hcc0]; exact hcn⟩
      have ha1 : a - 1 + 1 = i + m := by omega
      have ha1' : a - 1 < cs.length := by omega
      have htkeq : cs.take (a - 1 + 2) = cs.take (a + 1) := by congr 1; omega
      have hdreq : cs.drop (a - 1 + 1) = cs.drop a := by congr 1; omega
      obtain ⟨σ', hrun, hframe, hupd⟩ :=
        ih f (upd σ c0 { cn0 with i := a + 1 }) cs i (a - 1) h1 ha1 ha1' (by omega) hex'
      rw [htkeq, hdreq] at hrun
      refine ⟨σ', by rw [hstep, hrun], ?_, ?_⟩
      · -- frame: only the records of positions `i..a` change
        intro x hx
        have hxa : x ≠ c0 := by
          intro he
          subst he
          apply hx
          have hmem : (cs.drop i).get? (a - i) = some x := by
            rw [List.get?_drop]
            rw [show i + (a - i) = a by omega]
            exact hc0
          have hlt : a - i < a + 1 - i := by omega
          exact List.get?_mem (by rw [List.get?_take hlt]; exact hmem)
        have hx2 : x ∉ (cs.drop i).take (a - 1 + 1 - i) := by
          intro hmem
          exact hx (mem_take_mono (by omega) hmem)
        rw [hframe x hx2, upd_other _ _ _ _ hxa]
      · -- the moved children's cached indices
        intro hnd b c hib hba hbc
        by_cases hbeq : b = a
        · have hcc0 : c = c0 := by
            rw [hbeq, hc0] at hbc
            exact (Option.some_inj.mp hbc).symm
          subst hcc0
          have hnotin : c ∉ (cs.drop i).take (a - 1 + 1 - i) := by
            intro hmem
            obtain ⟨k, hk⟩ := List.get?_of_mem hmem
            have hklen : k < ((cs.drop i).take (a - 1 + 1 - i)).length := by
              by_contra hge
              rw [List.get?_eq_none.mpr (by omega)] at hk
              exact Option.noConfusion hk
            have hklt : k < a - 1 + 1 - i := by
              rw [List.length_take] at hklen
              omega
            rw [List.get?_take hklt, List.get?_drop] at hk
            have heq := nodup_get?_inj hnd hk hc0
            omega
          rw [hbeq]
          refine ⟨cn0, hcn0, ?_⟩
          rw [hframe c hnotin, upd_same]
        · have hba' : b ≤ a - 1 := by omega
          have hcc0 : c ≠ c0 := fun he => hbeq (nodup_get?_inj hnd (he ▸ hbc) hc0)
          obtain ⟨cn, hcn, hcn'⟩ := hupd hnd b c hib hba' hbc
          rw [upd_other _ _ _ _ hcc0] at hcn
          exact ⟨cn, hcn, hcn'⟩

/-- The write of `t` into the freed slot `i`. -/
theorem writeSlot_insert {cs : List Nat} {i : Nat} (hile : i ≤ cs.length) (t : Nat) :
    writeSlot (cs.take (i + 1) ++ cs.drop i) i t
      = some (cs.take i ++ t :: cs.drop i) := by
  by_cases hlt : i < cs.length
  · have hlen : (cs.take (i + 1) ++ cs.drop i).length = cs.length + 1 := by
      simp only [List.length_append, List.length_take, List.length_drop]
      omega
    have htk : cs.take (i + 1) = cs.take i ++ [cs.get ⟨i, hlt⟩] := by
      rw [← List.take_concat_get cs i hlt]
      simp [List.concat_eq_append, List.get_eq_getElem]
    have hlen1 : (cs.take i).length = i := by
      rw [List.length_take]
      omega
    rw [writeSlot, if_pos (by omega)]
    congr 1
    rw [htk, List.append_assoc, List.set_append_right _ _ (by omega), hlen1]
    simp only [Nat.sub_self]
    rfl
  · have hieq : i = cs.length := by omega
    have htk : cs.take (i + 1) = cs := List.take_of_length_le (by omega)
    have htk1 : cs.take i = cs := List.take_of_length_le (by omega)
    have hdr : cs.drop i = [] := List.drop_eq_nil_of_le (by omega)
    rw [htk, hdr, List.append_nil, writeSlot, if_neg (by omega), if_pos (by omega), htk1]

/-- Positions of the child array after inserting `t` at position `i`. -/
theorem get?_insert_list {cs : List Nat} {i : Nat} (hile : i ≤ cs.length) (t : Nat) (j : Nat) :
    (cs.take i ++ t :: cs.drop i).get? j
      = if j < i then cs.get? j else if j = i then some t else cs.get? (j - 1) := by
  have hlen : (cs.take i).length = i := by rw [List.length_take]; omega
  by_cases hj : j < i
  · rw [if_pos hj, List.get?_append (by omega)]
    exact List.get?_take hj
  · rw [if_neg hj, List.get?_append_right (by omega)]
    by_cases hje : j = i
    · rw [if_pos hje, hlen, hje]
      simp
    · rw [if_neg hje, hlen]
      have hji : j - i = (j - i - 1) + 1 := by omega
      rw [hji]
      simp only [List.get?_cons_succ]
      rw [List.get?_drop]
      congr 1
      omega

/-- Core of the `tree_insert_subtree` preservation: after the shift of the
trailing children (characterised by `hframe`/`hupd`), installing `t` at
position `i` and setting its parent and index preserves the invariant. -/
theorem ChildWF.insert_core {σ σs : Arena} (h : ChildWF σ) {n t i : Nat} {nn tn : TreeNode}
    (hn : σ n = some nn) (ht : σ t = some tn) (htp : tn.parent = none)
    (hi1 : 1 ≤ i) (hile : i ≤ nn.children.length)
    (hframe : ∀ x, x ∉ nn.children.drop i → σs x = σ x)
    (hupd : ∀ b c, i ≤ b → b + 1 ≤ nn.children.length → nn.children.get? b = some c →
        ∃ cn, σ c = some cn ∧ σs c = some { cn with i := b + 1 })
    {nn₁ tn₂ : TreeNode}
    (hσsn : σs n = some nn₁) (hnn₁c : nn₁.children = nn.children)
    (hnn₁p : nn₁.parent = nn.parent) (hnn₁i : nn₁.i = nn.i ∨ n ∈ nn.children.drop i)
    (hσ₂t : upd σs n { nn₁ with children := nn.children.take i ++ t :: nn.children.drop i } t
      = some tn₂) :
    ChildWF (upd (upd σs n { nn₁ with children := nn.children.take i ++ t :: nn.children.drop i })
      t { tn₂ with parent := some n, i := i }) := by
  have hnd : nn.children.Nodup := h.children_nodup hn
  have hnotin : ∀ q qn, σ q = some qn → t ∉ qn.children :=
    fun q qn hq => h.not_in_children ht htp hq
  have htcs : t ∉ nn.children := hnotin n nn hn
  have htdrop : t ∉ nn.children.drop i := fun hm => htcs (List.drop_subset i nn.children hm)
  have hσst : σs t = some tn := by rw [hframe t htdrop]; exact ht
  -- a child of `n` sitting at a position `< i` is untouched by the shift
  have hlow : ∀ j c, j < i → nn.children.get? j = some c → σs c = σ c := by
    intro j c hj hjc
    apply hframe
    intro hmem
    obtain ⟨k, hk⟩ := List.get?_of_mem hmem
    have hklen : k < (nn.children.drop i).length := by
      by_contra hge
      rw [List.get?_eq_none.mpr (by omega)] at hk
      exact Option.noConfusion hk
    rw [List.get?_drop] at hk
    have := nodup_get?_inj hnd hjc hk
    omega
  -- any node whose σ-parent is not `n` is untouched by the shift
  have hnotn : ∀ c cn, σ c = some cn → cn.parent ≠ some n → σs c = σ c := by
    intro c cn hc hcp
    apply hframe
    intro hmem
    obtain ⟨k, hk⟩ := List.get?_of_mem hmem
    rw [List.get?_drop] at hk
    obtain ⟨cn', hcn', _, hcp'⟩ := h n nn hn _ c hk
    rw [hc] at hcn'
    cases hcn'
    exact hcp hcp'
  intro p pn hp j c hc
  by_cases hpt : p = t
  · have hpt2 : t = p := hpt.symm
    subst hpt2
    rw [upd_same] at hp
    cases hp
    by_cases htn : t = n
    · -- `t = n`: appended under itself
      subst htn
      rw [upd_same] at hσ₂t
      cases hσ₂t
      rw [get?_insert_list hile] at hc
      -- `n ∉ cs` because `t = n` is rootless
      have hncs : t ∉ nn.children := htcs
      rcases Nat.lt_trichotomy j i with hlt | heq | hgt
      · rw [if_pos hlt] at hc
        obtain ⟨cn, hcn, hcni, hcnp⟩ := h t nn hn j c hc
        have hct : c ≠ t := fun he => hncs (he ▸ List.get?_mem hc)
        refine ⟨cn, ?_, hcni, hcnp⟩
        rw [upd_other _ _ _ _ hct, upd_other _ _ _ _ hct, hlow j c hlt hc]
        exact hcn
      · subst heq
        rw [if_neg (by omega), if_pos rfl] at hc
        cases hc
        exact ⟨_, upd_same _ _ _, rfl, rfl⟩
      · rw [if_neg (by omega), if_neg (by omega)] at hc
        obtain ⟨cn, hcn, hcni, hcnp⟩ := h t nn hn (j - 1) c hc
        have hct : c ≠ t := fun he => hncs (he ▸ List.get?_mem hc)
        have hblen : j - 1 + 1 ≤ nn.children.length := by
          have hne : nn.children.get? (j - 1) ≠ none := by rw [hc]; simp
          rw [Ne, List.get?_eq_none] at hne
          omega
        obtain ⟨cn', hcn', hcn''⟩ := hupd (j - 1) c (by omega) hblen hc
        rw [hcn] at hcn'
        cases hcn'
        refine ⟨{ cn with i := j }, ?_, rfl, hcnp⟩
        rw [upd_other _ _ _ _ hct, upd_other _ _ _ _ hct]
        rw [show j - 1 + 1 = j by omega] at hcn''
        exact hcn''
    · -- `t ≠ n`: `t`'s own children keep their records
      rw [upd_other _ _ _ _ htn, hσst] at hσ₂t
      cases hσ₂t
      obtain ⟨cn, hcn, hcni, hcnp⟩ := h t tn ht j c hc
      have hct : c ≠ t := by
        intro he
        subst he
        rw [ht] at hcn
        cases hcn
        rw [htp] at hcnp
        exact Option.noConfusion hcnp
      by_cases hcn' : c = n
      · have hcn'2 : n = c := hcn'.symm
        subst hcn'2
        rw [hn] at hcn
        cases hcn
        refine ⟨{ nn₁ with children := nn.children.take i ++ t :: nn.children.drop i }, ?_, ?_, ?_⟩
        · rw [upd_other _ _ _ _ hct, upd_same]
        · -- `n ∈ children of t` forces `n` unmoved: its parent is `t ≠ n`
          rcases hnn₁i with hkeep | hmoved
          · show nn₁.i = j
            rw [hkeep]
            exact hcni
          · exfalso
            obtain ⟨k, hk⟩ := List.get?_of_mem hmoved
            rw [List.get?_drop] at hk
            obtain ⟨cn', hcn', _, hcp'⟩ := h n nn hn _ _ hk
            rw [hn] at hcn'
            cases hcn'
            rw [hcnp] at hcp'
            exact htn (Option.some_inj.mp hcp')
        · show nn₁.parent = some t
          rw [hnn₁p]
          exact hcnp
      · have hcun : σs c = σ c := by
          apply hnotn c cn hcn
          rw [hcnp]
          intro he
          exact htn (Option.some_inj.mp he)
        refine ⟨cn, ?_, hcni, hcnp⟩
        rw [upd_other _ _ _ _ hct, upd_other _ _ _ _ hcn', hcun]
        exact hcn
  · rw [upd_other _ _ _ _ hpt] at hp
    by_cases hpn : p = n
    · -- the parent that received `t`
      have hpn2 : n = p := hpn.symm
      subst hpn2
      rw [upd_same] at hp
      cases hp
      have htn : t ≠ n := fun he => hpt he.symm
      rw [get?_insert_list hile] at hc
      rcases Nat.lt_trichotomy j i with hlt | heq | hgt
      · rw [if_pos hlt] at hc
        obtain ⟨cn, hcn, hcni, hcnp⟩ := h n nn hn j c hc
        have hct : c ≠ t := fun he => htcs (he ▸ List.get?_mem hc)
        by_cases hcn' : c = n
        · have hcn'2 : n = c := hcn'.symm
          subst hcn'2
          rw [hn] at hcn
          cases hcn
          refine ⟨{ nn₁ with children := nn.children.take i ++ t :: nn.children.drop i },
            ?_, ?_, ?_⟩
          · rw [upd_other _ _ _ _ hct, upd_same]
          · rcases hnn₁i with hkeep | hmoved
            · show nn₁.i = j
              rw [hkeep]
              exact hcni
            · exfalso
              obtain ⟨k, hk⟩ := List.get?_of_mem hmoved
              rw [List.get?_drop] at hk
              have := nodup_get?_inj hnd hc hk
              omega
          · show nn₁.parent = some n
            rw [hnn₁p]
            exact hcnp
        · refine ⟨cn, ?_, hcni, hcnp⟩
          rw [upd_other _ _ _ _ hct, upd_other _ _ _ _ hcn', hlow j c hlt hc]
          exact hcn
      · subst heq
        rw [if_neg (by omega), if_pos rfl] at hc
        cases hc
        exact ⟨_, upd_same _ _ _, rfl, rfl⟩
      · rw [if_neg (by omega), if_neg (by omega)] at hc
        have hblen : j - 1 + 1 ≤ nn.children.length := by
          have : nn.children.get? (j - 1) ≠ none := by rw [hc]; simp
          rw [Ne, List.get?_eq_none] at this
          omega
        obtain ⟨cn, hcn, hcni, hcnp⟩ := h n nn hn (j - 1) c hc
        have hct : c ≠ t := fun he => htcs (he ▸ List.get?_mem hc)
        obtain ⟨cn', hcn', hcn''⟩ := hupd (j - 1) c (by omega) hblen hc
        rw [hcn] at hcn'
        cases hcn'
        by_cases hcn2 : c = n
        · -- `n` itself was among the shifted children
          have hcn2' : n = c := hcn2.symm
          subst hcn2'
          rw [hn] at hcn
          cases hcn
          have hnn1 : nn₁ = { nn with i := j - 1 + 1 } := by
            rw [hσsn] at hcn''
            exact Option.some_inj.mp hcn''
          refine ⟨{ nn₁ with children := nn.children.take i ++ t :: nn.children.drop i },
            ?_, ?_, ?_⟩
          · rw [upd_other _ _ _ _ hct, upd_same]
          · show nn₁.i = j
            rw [hnn1]
            show j - 1 + 1 = j
            omega
          · show nn₁.parent = some n
            rw [hnn1]
            show nn.parent = some n
            exact hcnp
        · refine ⟨{ cn with i := j }, ?_, rfl, hcnp⟩
          rw [upd_other _ _ _ _ hct, upd_other _ _ _ _ hcn2]
          rw [show j - 1 + 1 = j by omega] at hcn''
          exact hcn''
    · -- unrelated parents
      rw [upd_other _ _ _ _ hpn] at hp
      -- `p`'s record in σs has the same children as in σ
      have hpstate : (∃ pn₀, σ p = some pn₀ ∧ pn₀.children = pn.children) := by
        by_cases hpm : p ∈ nn.children.drop i
        · obtain ⟨k, hk⟩ := List.get?_of_mem hpm
          rw [List.get?_drop] at hk
          have hklen : i + k + 1 ≤ nn.children.length := by
            have hne : nn.children.get? (i + k) ≠ none := by rw [hk]; simp
            rw [Ne, List.get?_eq_none] at hne
            omega
          obtain ⟨cn', hcn', hcn''⟩ := hupd (i + k) p (by omega) hklen hk
          rw [hcn''] at hp
          cases hp
          exact ⟨cn', hcn', rfl⟩
        · rw [hframe p hpm] at hp
          exact ⟨pn, hp, rfl⟩
      obtain ⟨pn₀, hp₀, hpc⟩ := hpstate
      rw [← hpc] at hc
      obtain ⟨cn, hcn, hcni, hcnp⟩ := h p pn₀ hp₀ j c hc
      have hct : c ≠ t := fun he => hnotin p pn₀ hp₀ (he ▸ List.get?_mem hc)
      by_cases hcn' : c = n
      · have hcn'2 : n = c := hcn'.symm
        subst hcn'2
        rw [hn] at hcn
        cases hcn
        refine ⟨{ nn₁ with children := nn.children.take i ++ t :: nn.children.drop i },
          ?_, ?_, ?_⟩
        · rw [upd_other _ _ _ _ hct, upd_same]
        · rcases hnn₁i with hkeep | hmoved
          · show nn₁.i = j
            rw [hkeep]
            exact hcni
          · exfalso
            obtain ⟨k, hk⟩ := List.get?_of_mem hmoved
            rw [List.get?_drop] at hk
            obtain ⟨cn', hcn', _, hcp'⟩ := h n nn hn _ _ hk
            rw [hn] at hcn'
            cases hcn'
            rw [hcnp] at hcp'
            exact hpn (Option.some_inj.mp hcp')
        · show nn₁.parent = some p
          rw [hnn₁p]
          exact hcnp
      · have hcun : σs c = σ c := by
          apply hnotn c cn hcn
          rw [hcnp]
          intro he
          exact hpn (Option.some_inj.mp he)
        refine ⟨cn, ?_, hcni, hcnp⟩
        rw [upd_other _ _ _ _ hct, upd_other _ _ _ _ hcn', hcun]
        exact hcn

/-- Positions of a child array after `children[i] = t` (the replace branch of
`tree_set_subtree`). -/
theorem get?_set_list {cs : List Nat} {i : Nat} (hlt : i < cs.length) (t : Nat) (j : Nat) :
    (cs.set i t).get? j = if j = i then some t else cs.get? j := by
  rw [List.get?_eq_getElem?, List.get?_eq_getElem?, List.getElem?_set]
  by_cases hji : i = j
  · rw [if_pos hji, if_pos hji.symm, if_pos (by omega)]
  · rw [if_neg hji, if_neg (fun he => hji he.symm)]

/-- Dropping the length of the left part of an append. -/
theorem drop_append_len {A B : List Nat} {m : Nat} (hm : A.length = m) :
    (A ++ B).drop m = B := by
  subst hm
  exact List.drop_left A B

/-- Positions of a child array after `eraseIdx` (the removal in
`tree_node_remove_child`). -/
theorem get?_eraseIdx_list {cs : List Nat} {i : Nat} (hlt : i < cs.length) (j : Nat) :
    (cs.eraseIdx i).get? j = if j < i then cs.get? j else cs.get? (j + 1) := by
  rw [List.eraseIdx_eq_take_drop_succ]
  by_cases hj : j < i
  · rw [if_pos hj, List.get?_append (by rw [List.length_take]; omega)]
    exact List.get?_take hj
  · rw [if_neg hj, List.get?_append_right (by rw [List.length_take]; omega)]
    rw [List.length_take, List.get?_drop]
    congr 1
    omega

/-- When the search loop of `tree_node_remove_child` terminates early, the
found slot holds the searched child. -/
theorem get?_findIdx_self {cs : List Nat} {c : Nat}
    (h : cs.findIdx (· = c) < cs.length) :
    cs.get? (cs.findIdx (· = c)) = some c := by
  rw [List.get?_eq_get h]
  exact congrArg some (of_decide_eq_true (@List.findIdx_get _ _ _ h))

/-- Releasing a node that sits in no child array preserves the invariant
(the `tree_free` performed by the `*_child` wrappers on a rejected fresh
node). -/
theorem ChildWF.erase_unchilded {σ : Arena} (h : ChildWF σ) {c : Nat}
    (hnot : ∀ q qn, σ q = some qn → c ∉ qn.children) : ChildWF (eraseA σ c) := by
  intro q qn hq j d hd
  have hqc : q ≠ c := by
    intro he
    rw [he] at hq
    simp [eraseA] at hq
  rw [eraseA_other σ c q hqc] at hq
  obtain ⟨dn, hdn, hdi, hdp⟩ := h q qn hq j d hd
  have hdc : d ≠ c := fun he => hnot q qn hq (he ▸ List.get?_mem hd)
  exact ⟨dn, by rw [eraseA_other σ c d hdc]; exact hdn, hdi, hdp⟩

/-- Clearing the parent and index of a node that sits in no child array
preserves the invariant (the final step of `tree_remove`). -/
theorem ChildWF.clear_parent {σ : Arena} (h : ChildWF σ) {n : Nat}
    (hnot : ∀ q qn, σ q = some qn → n ∉ qn.children) {nn : TreeNode}
    (hn : σ n = some nn) :
    ChildWF (upd σ n { nn with parent := none, i := 0 }) := by
  intro q qn hq j d hd
  by_cases hqn : q = n
  · have hqn2 : n = q := hqn.symm
    subst hqn2
    rw [upd_same] at hq
    cases hq
    have hd' : nn.children.get? j = some d := hd
    obtain ⟨dn, hdn, hdi, hdp⟩ := h n nn hn j d hd'
    have hdne : d ≠ n := fun he => hnot n nn hn (he ▸ List.get?_mem hd')
    exact ⟨dn, by rw [upd_other _ _ _ _ hdne]; exact hdn, hdi, hdp⟩
  · rw [upd_other _ _ _ _ hqn] at hq
    obtain ⟨dn, hdn, hdi, hdp⟩ := h q qn hq j d hd
    have hdne : d ≠ n := fun he => hnot q qn hq (he ▸ List.get?_mem hd)
    exact ⟨dn, by rw [upd_other _ _ _ _ hdne]; exact hdn, hdi, hdp⟩

/-- Run of the index-rewriting loop of `tree_node_remove_child`
(`for (; i < outDegree - 1; i++) { children[i] = children[i+1]; children[i]->i = i; }`,
modelled by `setIndices` on the shifted suffix): every listed node is
rewritten to its new position, everything else is untouched. -/
theorem setIndices_run : ∀ (l : List Nat) (σ : Arena) (j : Nat),
    (∀ x ∈ l, ∃ xn, σ x = some xn) → l.Nodup →
    ∃ σ₁, setIndices σ l j = some σ₁
      ∧ (∀ x, x ∉ l → σ₁ x = σ x)
      ∧ (∀ k x, l.get? k = some x →
          ∃ xn, σ x = some xn ∧ σ₁ x = some { xn with i := j + k }) := by
  intro l
  induction l with
  | nil =>
    intro σ j _ _
    exact ⟨σ, rfl, fun _ _ => rfl, fun k x hk => by simp at hk⟩
  | cons c cs ih =>
    intro σ j hlive hnd
    obtain ⟨cn, hcn⟩ := hlive c (List.mem_cons_self c cs)
    have hlive' : ∀ x ∈ cs, ∃ xn, upd σ c { cn with i := j } x = some xn := by
      intro x hx
      by_cases hxc : x = c
      · subst hxc
        exact ⟨_, upd_same _ _ _⟩
      · rw [upd_other _ _ _ _ hxc]
        exact hlive x (List.mem_cons_of_mem _ hx)
    have hnd' : cs.Nodup := (List.nodup_cons.mp hnd).2
    have hcnotin : c ∉ cs := (List.nodup_cons.mp hnd).1
    obtain ⟨σ₁, hrun, hframe, hupd⟩ := ih (upd σ c { cn with i := j }) (j + 1) hlive' hnd'
    refine ⟨σ₁, ?_, ?_, ?_⟩
    · simp only [setIndices, hcn]
      exact hrun
    · intro x hx
      have hxc : x ≠ c := fun he => hx (he ▸ List.mem_cons_self c cs)
      have hxcs : x ∉ cs := fun hm => hx (List.mem_cons_of_mem _ hm)
      rw [hframe x hxcs, upd_other _ _ _ _ hxc]
    · intro k x hk
      cases k with
      | zero =>
        simp only [List.get?_cons_zero, Option.some_inj] at hk
        subst hk
        refine ⟨cn, hcn, ?_⟩
        rw [hframe c hcnotin, upd_same, Nat.add_zero]
      | succ k' =>
        simp only [List.get?_cons_succ] at hk
        obtain ⟨xn, hxn, hxn'⟩ := hupd k' x hk
        have hxc : x ≠ c := fun he => hcnotin (he ▸ List.get?_mem hk)
        rw [upd_other _ _ _ _ hxc] at hxn
        refine ⟨xn, hxn, ?_⟩
        rw [hxn', show j + (k' + 1) = j + 1 + k' by omega]

/-- Core of the replace branch of `tree_set_subtree`: the old child at
position `i` is freed, the rootless `t` is written into its slot, and `t`'s
parent and index are set.  The invariant is preserved (including in the
degenerate `t = n` case the code does not rule out). -/
theorem ChildWF.set_core {σ : Arena} (h : ChildWF σ) {n t c i : Nat} {nn tn : TreeNode}
    (hn : σ n = some nn) (ht : σ t = some tn) (htp : tn.parent = none)
    (hc : nn.children.get? i = some c) {nnf tn₂ : TreeNode}
    (hσfn : eraseA σ c n = some nnf)
    (hσ₂t : upd (eraseA σ c) n { nnf with children := nnf.children.set i t } t = some tn₂) :
    ChildWF (upd (upd (eraseA σ c) n { nnf with children := nnf.children.set i t }) t
      { tn₂ with parent := some n, i := i }) := by
  have hnc : n ≠ c := by
    intro he
    rw [he] at hσfn
    simp [eraseA] at hσfn
  have hnnf : nn = nnf := by
    rw [eraseA_other σ c n hnc, hn] at hσfn
    exact Option.some_inj.mp hσfn
  subst hnnf
  obtain ⟨cnode, hcnode, hci, hcp⟩ := h n nn hn i c hc
  have htc : t ≠ c := by
    intro he
    rw [he, hcnode] at ht
    cases ht
    rw [htp] at hcp
    exact Option.noConfusion hcp
  have hilen : i < nn.children.length := by
    have hne : nn.children.get? i ≠ none := by rw [hc]; simp
    rw [Ne, List.get?_eq_none] at hne
    omega
  have honly : ∀ j, nn.children.get? j = some c → j = i := fun j hj => h.get?_inj hn hj hc
  intro p pn hp j d hd
  by_cases hpt : p = t
  · have hpt2 : t = p := hpt.symm
    subst hpt2
    rw [upd_same] at hp
    cases hp
    have hd' : tn₂.children.get? j = some d := hd
    by_cases htn : t = n
    · have htn2 : t = n := htn
      subst htn2
      rw [upd_same] at hσ₂t
      cases hσ₂t
      have hd2 : (nn.children.set i t).get? j = some d := hd'
      rw [get?_set_list hilen t j] at hd2
      by_cases hji : j = i
      · rw [if_pos hji] at hd2
        cases hd2
        refine ⟨_, upd_same _ _ _, ?_, ?_⟩
        · exact hji.symm
        · rfl
      · rw [if_neg hji] at hd2
        obtain ⟨dn, hdn, hdi, hdp⟩ := h t nn hn j d hd2
        have hdc : d ≠ c := fun he => hji (honly j (he ▸ hd2))
        have hdt : d ≠ t := by
          intro he
          rw [he, hn] at hdn
          cases hdn
          rw [ht] at hn
          cases hn
          rw [htp] at hdp
          exact Option.noConfusion hdp
        refine ⟨dn, ?_, hdi, hdp⟩
        rw [upd_other _ _ _ _ hdt, upd_other _ _ _ _ hdt, eraseA_other σ c d hdc]
        exact hdn
    · rw [upd_other _ _ _ _ htn, eraseA_other σ c t htc, ht] at hσ₂t
      cases hσ₂t
      obtain ⟨dn, hdn, hdi, hdp⟩ := h t tn ht j d hd'
      have hdt : d ≠ t := by
        intro he
        rw [he, ht] at hdn
        cases hdn
        rw [htp] at hdp
        exact Option.noConfusion hdp
      have hdc : d ≠ c := by
        intro he
        rw [he, hcnode] at hdn
        cases hdn
        rw [hcp] at hdp
        exact htn (Option.some_inj.mp hdp).symm
      by_cases hdn' : d = n
      · have hdn'2 : n = d := hdn'.symm
        subst hdn'2
        rw [hn] at hdn
        cases hdn
        refine ⟨{ nn with children := nn.children.set i t }, ?_, hdi, hdp⟩
        rw [upd_other _ _ _ _ (fun he => htn he.symm), upd_same]
      · refine ⟨dn, ?_, hdi, hdp⟩
        rw [upd_other _ _ _ _ hdt, upd_other _ _ _ _ hdn', eraseA_other σ c d hdc]
        exact hdn
  · rw [upd_other _ _ _ _ hpt] at hp
    by_cases hpn : p = n
    · have hpn2 : n = p := hpn.symm
      subst hpn2
      rw [upd_same] at hp
      cases hp
      have hd' : (nn.children.set i t).get? j = some d := hd
      rw [get?_set_list hilen t j] at hd'
      by_cases hji : j = i
      · rw [if_pos hji] at hd'
        cases hd'
        refine ⟨_, upd_same _ _ _, ?_, ?_⟩
        · exact hji.symm
        · rfl
      · rw [if_neg hji] at hd'
        obtain ⟨dn, hdn, hdi, hdp⟩ := h n nn hn j d hd'
        have hdc : d ≠ c := fun he => hji (honly j (he ▸ hd'))
        have hdt : d ≠ t := fun he => h.not_in_children ht htp hn (he ▸ List.get?_mem hd')
        by_cases hdn' : d = n
        · have hdn'2 : n = d := hdn'.symm
          subst hdn'2
          rw [hn] at hdn
          cases hdn
          refine ⟨{ nn with children := nn.children.set i t }, ?_, hdi, hdp⟩
          rw [upd_other _ _ _ _ hdt, upd_same]
        · refine ⟨dn, ?_, hdi, hdp⟩
          rw [upd_other _ _ _ _ hdt, upd_other _ _ _ _ hdn', eraseA_other σ c d hdc]
          exact hdn
    · rw [upd_other _ _ _ _ hpn] at hp
      have hpc : p ≠ c := by
        intro he
        rw [he] at hp
        simp [eraseA] at hp
      rw [eraseA_other σ c p hpc] at hp
      obtain ⟨dn, hdn, hdi, hdp⟩ := h p pn hp j d hd
      have hdt : d ≠ t := fun he => h.not_in_children ht htp hp (he ▸ List.get?_mem hd)
      have hdc : d ≠ c := by
        intro he
        exact hpn (h.parent_unique hp hn (he ▸ List.get?_mem hd) (List.get?_mem hc))
      by_cases hdn' : d = n
      · have hdn'2 : n = d := hdn'.symm
        subst hdn'2
        rw [hn] at hdn
        cases hdn
        refine ⟨{ nn with children := nn.children.set i t }, ?_, hdi, hdp⟩
        rw [upd_other _ _ _ _ hdt, upd_same]
      · refine ⟨dn, ?_, hdi, hdp⟩
        rw [upd_other _ _ _ _ hdt, upd_other _ _ _ _ hdn', eraseA_other σ c d hdc]
        exact hdn

/-- `tree_node_remove_child` preserves the invariant: the children kept
below the found position keep their indices, the shifted suffix caches the
decremented positions.  Moreover the removed child sits in no child array
afterwards. -/
theorem wf_node_remove_child {σ : Arena} (h : ChildWF σ) {c : Nat} {σ' : Arena}
    (hrun : tree_node_remove_child σ c = some σ') :
    ChildWF σ' ∧ ∀ q qn, σ' q = some qn → c ∉ qn.children := by
  simp only [tree_node_remove_child] at hrun
  cases hcn : σ c with
  | none =>
    simp only [hcn] at hrun
    exact Option.noConfusion hrun
  | some cn =>
    simp only [hcn] at hrun
    cases hcp : cn.parent with
    | none =>
      simp only [hcp] at hrun
      exact Option.noConfusion hrun
    | some p =>
      simp only [hcp] at hrun
      cases hpn : σ p with
      | none =>
        simp only [hpn] at hrun
        exact Option.noConfusion hrun
      | some pn =>
        simp only [hpn] at hrun
        set idx := pn.children.findIdx (· = c) with hidxdef
        by_cases hfound : idx < pn.children.length
        · rw [if_pos hfound] at hrun
          have hgetidx : pn.children.get? idx = some c := by
            rw [hidxdef]
            exact get?_findIdx_self (by rw [← hidxdef]; exact hfound)
          obtain ⟨c₀n, hc₀n, hc₀i, hc₀p⟩ := h p pn hpn idx c hgetidx
          rw [hcn] at hc₀n
          cases hc₀n
          have hdrop : (pn.children.eraseIdx idx).drop idx = pn.children.drop (idx + 1) := by
            rw [List.eraseIdx_eq_take_drop_succ]
            exact drop_append_len (by rw [List.length_take]; omega)
          have hlive : ∀ x ∈ pn.children.drop (idx + 1), ∃ xn, σ x = some xn := by
            intro x hx
            obtain ⟨k, hk⟩ := List.get?_of_mem hx
            rw [List.get?_drop] at hk
            obtain ⟨xn, hxn, _, _⟩ := h p pn hpn (idx + 1 + k) x hk
            exact ⟨xn, hxn⟩
          have hnd' : (pn.children.drop (idx + 1)).Nodup :=
            List.Nodup.sublist (List.drop_sublist _ _) (h.children_nodup hpn)
          obtain ⟨σ₁, hsi, hframe, hupd⟩ :=
            setIndices_run (pn.children.drop (idx + 1)) σ idx hlive hnd'
          simp only [hdrop, hsi] at hrun
          cases hσ₁p : σ₁ p with
          | none =>
            simp only [hσ₁p] at hrun
            exact Option.noConfusion hrun
          | some pn₁ =>
            simp only [hσ₁p, Option.some_inj] at hrun
            subst hrun
            have hpn₁ : pn₁.children = pn.children ∧ pn₁.parent = pn.parent
                ∧ (pn₁.i = pn.i ∨ p ∈ pn.children.drop (idx + 1)) := by
              by_cases hpm : p ∈ pn.children.drop (idx + 1)
              · obtain ⟨k, hk⟩ := List.get?_of_mem hpm
                obtain ⟨xn, hxn, hxn'⟩ := hupd k p hk
                rw [hpn] at hxn
                cases hxn
                rw [hxn'] at hσ₁p
                cases hσ₁p
                exact ⟨rfl, rfl, Or.inr hpm⟩
              · rw [hframe p hpm, hpn] at hσ₁p
                cases hσ₁p
                exact ⟨rfl, rfl, Or.inl rfl⟩
            have hchar : ∀ q qn, σ₁ q = some qn →
                ∃ qn₀, σ q = some qn₀ ∧ qn.children = qn₀.children := by
              intro q qn hq
              by_cases hqm : q ∈ pn.children.drop (idx + 1)
              · obtain ⟨k, hk⟩ := List.get?_of_mem hqm
                obtain ⟨xn, hxn, hxn'⟩ := hupd k q hk
                rw [hxn'] at hq
                cases hq
                exact ⟨xn, hxn, rfl⟩
              · rw [hframe q hqm] at hq
                exact ⟨qn, hq, rfl⟩
            refine ⟨?_, ?_⟩
            · intro q qn hq j d hd
              by_cases hqp : q = p
              · have hqp2 : p = q := hqp.symm
                subst hqp2
                rw [upd_same] at hq
                cases hq
                have hd' : (pn.children.eraseIdx idx).get? j = some d := hd
                rw [get?_eraseIdx_list hfound j] at hd'
                by_cases hj : j < idx
                · rw [if_pos hj] at hd'
                  obtain ⟨dn, hdn, hdi, hdp⟩ := h p pn hpn j d hd'
                  have hdnotl : d ∉ pn.children.drop (idx + 1) := by
                    intro hm
                    obtain ⟨k, hk⟩ := List.get?_of_mem hm
                    rw [List.get?_drop] at hk
                    have := h.get?_inj hpn hd' hk
                    omega
                  by_cases hdp' : d = p
                  · have hdp'2 : p = d := hdp'.symm
                    subst hdp'2
                    rw [hpn] at hdn
                    cases hdn
                    refine ⟨{ pn₁ with children := pn.children.eraseIdx idx },
                      upd_same _ _ _, ?_, ?_⟩
                    · rcases hpn₁.2.2 with hkeep | hmoved
                      · show pn₁.i = j
                        rw [hkeep]
                        exact hdi
                      · exact absurd hmoved hdnotl
                    · show pn₁.parent = some p
                      rw [hpn₁.2.1]
                      exact hdp
                  · refine ⟨dn, ?_, hdi, hdp⟩
                    rw [upd_other _ _ _ _ hdp', hframe d hdnotl]
                    exact hdn
                · rw [if_neg hj] at hd'
                  obtain ⟨dn, hdn, hdi, hdp⟩ := h p pn hpn (j + 1) d hd'
                  have hk : (pn.children.drop (idx + 1)).get? (j - idx) = some d := by
                    rw [List.get?_drop, show idx + 1 + (j - idx) = j + 1 by omega]
                    exact hd'
                  obtain ⟨xn, hxn, hxn'⟩ := hupd (j - idx) d hk
                  rw [hdn] at hxn
                  cases hxn
                  have hxn'' : σ₁ d = some { dn with i := j } := by
                    rw [hxn', show idx + (j - idx) = j by omega]
                  by_cases hdp' : d = p
                  · have hdp'2 : p = d := hdp'.symm
                    subst hdp'2
                    rw [hpn] at hdn
                    cases hdn
                    rw [hxn''] at hσ₁p
                    cases hσ₁p
                    refine ⟨_, upd_same _ _ _, ?_, ?_⟩
                    · rfl
                    · exact hdp
                  · refine ⟨{ dn with i := j }, ?_, rfl, hdp⟩
                    rw [upd_other _ _ _ _ hdp']
                    exact hxn''
              · rw [upd_other _ _ _ _ hqp] at hq
                obtain ⟨qn₀, hq₀, hqc⟩ := hchar q qn hq
                rw [hqc] at hd
                obtain ⟨dn, hdn, hdi, hdp⟩ := h q qn₀ hq₀ j d hd
                have hdnotl : d ∉ pn.children.drop (idx + 1) := by
                  intro hm
                  exact hqp (h.parent_unique hq₀ hpn (List.get?_mem hd)
                    (List.mem_of_mem_drop hm))
                by_cases hdp' : d = p
                · have hdp'2 : p = d := hdp'.symm
                  subst hdp'2
                  rw [hpn] at hdn
                  cases hdn
                  refine ⟨{ pn₁ with children := pn.children.eraseIdx idx },
                    upd_same _ _ _, ?_, ?_⟩
                  · rcases hpn₁.2.2 with hkeep | hmoved
                    · show pn₁.i = j
                      rw [hkeep]
                      exact hdi
                    · exact absurd hmoved hdnotl
                  · show pn₁.parent = some q
                    rw [hpn₁.2.1]
                    exact hdp
                · refine ⟨dn, ?_, hdi, hdp⟩
                  rw [upd_other _ _ _ _ hdp', hframe d hdnotl]
                  exact hdn
            · intro q qn hq hmem
              by_cases hqp : q = p
              · have hqp2 : p = q := hqp.symm
                subst hqp2
                rw [upd_same] at hq
                cases hq
                obtain ⟨k, hk⟩ := List.get?_of_mem hmem
                have hk' : (pn.children.eraseIdx idx).get? k = some c := hk
                rw [get?_eraseIdx_list hfound k] at hk'
                by_cases hklt : k < idx
                · rw [if_pos hklt] at hk'
                  have := h.get?_inj hpn hk' hgetidx
                  omega
                · rw [if_neg hklt] at hk'
                  have := h.get?_inj hpn hk' hgetidx
                  omega
              · rw [upd_other _ _ _ _ hqp] at hq
                obtain ⟨qn₀, hq₀, hqc⟩ := hchar q qn hq
                rw [hqc] at hmem
                obtain ⟨k, hk⟩ := List.get?_of_mem hmem
                obtain ⟨xn, hxn, _, hxp⟩ := h q qn₀ hq₀ k c hk
                rw [hcn] at hxn
                cases hxn
                rw [hcp] at hxp
                exact hqp (Option.some_inj.mp hxp).symm
        · rw [if_neg hfound] at hrun
          exact Option.noConfusion hrun

/-- `tree_add_subtree` preserves the index invariant. -/
theorem wf_add_subtree {fuel : Nat} {σ : Arena} {n : Nat} {t : Option Nat}
    {r : Option Nat} {σ' : Arena} (h : ChildWF σ)
    (hrun : tree_add_subtree fuel σ n t = some (r, σ')) : ChildWF σ' := by
  cases t with
  | none =>
    simp only [tree_add_subtree, Option.some_inj, Prod.mk.injEq] at hrun
    rw [← hrun.2]
    exact h
  | some t =>
    simp only [tree_add_subtree] at hrun
    cases ht : σ t with
    | none =>
      simp only [ht] at hrun
      exact Option.noConfusion hrun
    | some tn =>
      simp only [ht] at hrun
      cases htp : tn.parent with
      | some q =>
        simp only [htp, Option.some_inj, Prod.mk.injEq] at hrun
        rw [← hrun.2]
        exact h
      | none =>
        simp only [htp] at hrun
        cases hn : σ n with
        | none =>
          simp only [hn] at hrun
          exact Option.noConfusion hrun
        | some nn =>
          simp only [hn] at hrun
          cases hσ₁t : upd σ n { nn with children := nn.children ++ [t] } t with
          | none =>
            simp only [hσ₁t] at hrun
            exact Option.noConfusion hrun
          | some tn₁ =>
            simp only [hσ₁t] at hrun
            cases hup : tree_update_height fuel
                (upd (upd σ n { nn with children := nn.children ++ [t] }) t
                  { tn₁ with parent := some n, i := nn.children.length }) (some n) with
            | none =>
              simp only [hup] at hrun
              exact Option.noConfusion hrun
            | some σ₃ =>
              simp only [hup, Option.some_inj, Prod.mk.injEq] at hrun
              rw [← hrun.2]
              exact ChildWF.of_sameShape (tree_update_height_sameShape _ _ _ _ hup)
                (h.append_child hn ht htp hσ₁t)

/-- `tree_add_child` preserves the index invariant. -/
theorem wf_add_child {fuel : Nat} {σ : Arena} {n data cid : Nat}
    {r : Option Nat} {σ' : Arena} (h : ChildWF σ)
    (hrun : tree_add_child fuel σ n data cid = some (r, σ')) : ChildWF σ' := by
  simp only [tree_add_child] at hrun
  cases hn : σ n with
  | none =>
    simp only [hn] at hrun
    exact Option.noConfusion hrun
  | some nn =>
    simp only [hn] at hrun
    cases ha : tree_alloc σ cid data with
    | none =>
      simp only [ha] at hrun
      exact Option.noConfusion hrun
    | some σ₀ =>
      simp only [ha] at hrun
      obtain ⟨h₀, hdead, hσ₀⟩ := h.alloc ha
      have hcid : σ₀ cid
          = some { parent := none, children := [], data := data, i := 0, h := 0 } := by
        rw [hσ₀]
        exact upd_same _ _ _
      cases hn₀ : σ₀ n with
      | none =>
        simp only [hn₀] at hrun
        exact Option.noConfusion hrun
      | some nn₀ =>
        simp only [hn₀] at hrun
        cases hσ₁c : upd σ₀ n { nn₀ with children := nn₀.children ++ [cid] } cid with
        | none =>
          simp only [hσ₁c] at hrun
          exact Option.noConfusion hrun
        | some cn =>
          simp only [hσ₁c] at hrun
          cases hup : tree_update_height fuel
              (upd (upd σ₀ n { nn₀ with children := nn₀.children ++ [cid] }) cid
                { cn with parent := some n, i := nn₀.children.length }) (some n) with
          | none =>
            simp only [hup] at hrun
            exact Option.noConfusion hrun
          | some σ₃ =>
            simp only [hup, Option.some_inj, Prod.mk.injEq] at hrun
            rw [← hrun.2]
            exact ChildWF.of_sameShape (tree_update_height_sameShape _ _ _ _ hup)
              (h₀.append_child hn₀ hcid rfl hσ₁c)

/-- `tree_remove` preserves the index invariant: the children after the
removed position slide down one slot and cache their decremented index. -/
theorem wf_remove {fuel : Nat} {σ : Arena} {n : Nat} {σ' : Arena} (h : ChildWF σ)
    (hrun : tree_remove fuel σ n = some σ') : ChildWF σ' := by
  simp only [tree_remove] at hrun
  cases hn : σ n with
  | none =>
    simp only [hn] at hrun
    exact Option.noConfusion hrun
  | some nn =>
    simp only [hn] at hrun
    cases hnp : nn.parent with
    | none =>
      simp only [hnp, Option.some_inj] at hrun
      rw [← hrun]
      exact h
    | some p =>
      simp only [hnp] at hrun
      cases hrm : tree_node_remove_child σ n with
      | none =>
        simp only [hrm] at hrun
        exact Option.noConfusion hrun
      | some σ₁ =>
        simp only [hrm] at hrun
        obtain ⟨h₁, h₁not⟩ := wf_node_remove_child h hrm
        cases hup : tree_update_height fuel σ₁ (some p) with
        | none =>
          simp only [hup] at hrun
          exact Option.noConfusion hrun
        | some σ₂ =>
          simp only [hup] at hrun
          have hshape := tree_update_height_sameShape _ _ _ _ hup
          have h₂ := h₁.of_sameShape hshape
          have hnotc : ∀ q qn, σ₂ q = some qn → n ∉ qn.children := by
            intro q qn hq
            obtain ⟨qn', hq', _, hch, _⟩ := sameShape_lookup hshape hq
            rw [← hch]
            exact h₁not q qn' hq'
          cases hn₂ : σ₂ n with
          | none =>
            simp only [hn₂] at hrun
            exact Option.noConfusion hrun
          | some nn₂ =>
            simp only [hn₂, Option.some_inj] at hrun
            rw [← hrun]
            exact h₂.clear_parent hnotc hn₂

/-- When `tree_insert_subtree` returns a non-`NULL` pointer, it was one of
the rejection branches: the pointer is `t` and the heap is unchanged. -/
theorem insert_subtree_pointer_shape {fuel : Nat} {σ : Arena} {n t i c : Nat} {σ' : Arena}
    (hrun : tree_insert_subtree fuel σ n (some t) i = some (some c, σ')) :
    c = t ∧ σ' = σ := by
  simp only [tree_insert_subtree] at hrun
  cases hn : σ n with
  | none =>
    simp only [hn] at hrun
    exact Option.noConfusion hrun
  | some nn =>
    simp only [hn] at hrun
    by_cases hgt : i > nn.children.length
    · rw [if_pos hgt] at hrun
      simp only [Option.some_inj, Prod.mk.injEq] at hrun
      exact ⟨hrun.1.symm, hrun.2.symm⟩
    · rw [if_neg hgt] at hrun
      cases ht : σ t with
      | none =>
        simp only [ht] at hrun
        exact Option.noConfusion hrun
      | some tn =>
        simp only [ht] at hrun
        cases htp : tn.parent with
        | some q =>
          simp only [htp, Option.some_inj, Prod.mk.injEq] at hrun
          exact ⟨hrun.1.symm, hrun.2.symm⟩
        | none =>
          simp only [htp] at hrun
          cases hsl : shiftLoop (nn.children.length + 2) σ nn.children
              (if nn.children.length = 0 then U32 - 1 else nn.children.length - 1) i with
          | none =>
            simp only [hsl] at hrun
            exact Option.noConfusion hrun
          | some pr =>
            obtain ⟨σs, slots₁⟩ := pr
            simp only [hsl] at hrun
            cases hw : writeSlot slots₁ i t with
            | none =>
              simp only [hw] at hrun
              exact Option.noConfusion hrun
            | some slots₂ =>
              simp only [hw] at hrun
              cases hσsn : σs n with
              | none =>
                simp only [hσsn] at hrun
                exact Option.noConfusion hrun
              | some nn₁ =>
                simp only [hσsn] at hrun
                cases hσ₂t : upd σs n { nn₁ with children := slots₂ } t with
                | none =>
                  simp only [hσ₂t] at hrun
                  exact Option.noConfusion hrun
                | some tn₂ =>
                  simp only [hσ₂t] at hrun
                  cases hup : tree_update_height fuel
                      (upd (upd σs n { nn₁ with children := slots₂ }) t
                        { tn₂ with parent := some n, i := i }) (some n) with
                  | none =>
                    simp only [hup] at hrun
                    exact Option.noConfusion hrun
                  | some σ₄ =>
                    simp only [hup, Option.some_inj, Prod.mk.injEq] at hrun
                    exact Option.noConfusion hrun.1

/-- `tree_insert_subtree` preserves the index invariant: the shifted
children cache their incremented positions and `t` caches `i`. -/
theorem wf_insert_subtree {fuel : Nat} {σ : Arena} {n : Nat} {t : Option Nat} {i : Nat}
    {r : Option Nat} {σ' : Arena} (h : ChildWF σ)
    (hrun : tree_insert_subtree fuel σ n t i = some (r, σ')) : ChildWF σ' := by
  cases t with
  | none =>
    simp only [tree_insert_subtree, Option.some_inj, Prod.mk.injEq] at hrun
    rw [← hrun.2]
    exact h
  | some t =>
    simp only [tree_insert_subtree] at hrun
    cases hn : σ n with
    | none =>
      simp only [hn] at hrun
      exact Option.noConfusion hrun
    | some nn =>
      simp only [hn] at hrun
      by_cases hgt : i > nn.children.length
      · rw [if_pos hgt] at hrun
        simp only [Option.some_inj, Prod.mk.injEq] at hrun
        rw [← hrun.2]
        exact h
      · rw [if_neg hgt] at hrun
        cases ht : σ t with
        | none =>
          simp only [ht] at hrun
          exact Option.noConfusion hrun
        | some tn =>
          simp only [ht] at hrun
          cases htp : tn.parent with
          | some q =>
            simp only [htp, Option.some_inj, Prod.mk.injEq] at hrun
            rw [← hrun.2]
            exact h
          | none =>
            simp only [htp] at hrun
            by_cases hi0 : i = 0
            · subst hi0
              simp only [shiftLoop_zero_none] at hrun
              exact Option.noConfusion hrun
            · have hi1 : 1 ≤ i := by omega
              have hile : i ≤ nn.children.length := by omega
              have hod : nn.children.length ≠ 0 := by omega
              rw [if_neg hod] at hrun
              have hlive : ∀ x ∈ nn.children, ∃ xn, σ x = some xn := by
                intro x hx
                obtain ⟨k, hk⟩ := List.get?_of_mem hx
                obtain ⟨xn, hxn, _, _⟩ := h n nn hn k x hk
                exact ⟨xn, hxn⟩
              obtain ⟨σs, hloop, hframe0, hupd0⟩ :=
                shiftLoop_run (nn.children.length - i) (nn.children.length + 2) σ
                  nn.children i (nn.children.length - 1) hi1 (by omega) (by omega)
                  (by omega) hlive
              have hcseq : nn.children.take (nn.children.length - 1 + 2)
                  ++ nn.children.drop (nn.children.length - 1 + 1) = nn.children := by
                rw [List.take_of_length_le (by omega), List.drop_eq_nil_of_le (by omega),
                  List.append_nil]
              rw [hcseq] at hloop
              have hdt : (nn.children.drop i).take (nn.children.length - 1 + 1 - i)
                  = nn.children.drop i :=
                List.take_of_length_le (by rw [List.length_drop]; omega)
              rw [hdt] at hframe0
              have hupd : ∀ b c, i ≤ b → b + 1 ≤ nn.children.length →
                  nn.children.get? b = some c →
                  ∃ cn, σ c = some cn ∧ σs c = some { cn with i := b + 1 } :=
                fun b c hib hble hbc =>
                  hupd0 (h.children_nodup hn) b c hib (by omega) hbc
              simp only [hloop] at hrun
              simp only [writeSlot_insert hile t] at hrun
              have hσsn : ∃ nn₁, σs n = some nn₁ ∧ nn₁.children = nn.children
                  ∧ nn₁.parent = nn.parent
                  ∧ (nn₁.i = nn.i ∨ n ∈ nn.children.drop i) := by
                by_cases hmem : n ∈ nn.children.drop i
                · obtain ⟨k, hk⟩ := List.get?_of_mem hmem
                  rw [List.get?_drop] at hk
                  have hkb : i + k + 1 ≤ nn.children.length := by
                    have hne : nn.children.get? (i + k) ≠ none := by rw [hk]; simp
                    rw [Ne, List.get?_eq_none] at hne
                    omega
                  obtain ⟨cn, hcn, hcn'⟩ := hupd (i + k) n (by omega) hkb hk
                  rw [hn] at hcn
                  cases hcn
                  exact ⟨_, hcn', rfl, rfl, Or.inr hmem⟩
                · rw [hframe0 n hmem, hn]
                  exact ⟨nn, rfl, rfl, rfl, Or.inl rfl⟩
              obtain ⟨nn₁, hσsn, hnn₁c, hnn₁p, hnn₁i⟩ := hσsn
              simp only [hσsn] at hrun
              cases hσ₂t : upd σs n
                  { nn₁ with children := nn.children.take i ++ t :: nn.children.drop i }
                  t with
              | none =>
                simp only [hσ₂t] at hrun
                exact Option.noConfusion hrun
              | some tn₂ =>
                simp only [hσ₂t] at hrun
                cases hup : tree_update_height fuel
                    (upd (upd σs n { nn₁ with
                        children := nn.children.take i ++ t :: nn.children.drop i }) t
                      { tn₂ with parent := some n, i := i }) (some n) with
                | none =>
                  simp only [hup] at hrun
                  exact Option.noConfusion hrun
                | some σ₄ =>
                  simp only [hup, Option.some_inj, Prod.mk.injEq] at hrun
                  rw [← hrun.2]
                  exact ChildWF.of_sameShape (tree_update_height_sameShape _ _ _ _ hup)
                    (h.insert_core hn ht htp hi1 hile hframe0 hupd hσsn hnn₁c hnn₁p
                      hnn₁i hσ₂t)

/-- When `tree_set_subtree` returns a non-`NULL` pointer, it was one of the
rejection branches: the pointer is `t` and the heap is unchanged. -/
theorem set_subtree_pointer_shape {fuel : Nat} {σ : Arena} {n t i c : Nat} {σ' : Arena}
    (hrun : tree_set_subtree fuel σ n (some t) i = some (some c, σ')) :
    c = t ∧ σ' = σ := by
  simp only [tree_set_subtree] at hrun
  cases hn : σ n with
  | none =>
    simp only [hn] at hrun
    exact Option.noConfusion hrun
  | some nn =>
    simp only [hn] at hrun
    by_cases hgt : i > nn.children.length
    · rw [if_pos hgt] at hrun
      simp only [Option.some_inj, Prod.mk.injEq] at hrun
      exact ⟨hrun.1.symm, hrun.2.symm⟩
    · rw [if_neg hgt] at hrun
      cases ht : σ t with
      | none =>
        simp only [ht] at hrun
        exact Option.noConfusion hrun
      | some tn =>
        simp only [ht] at hrun
        cases htp : tn.parent with
        | some q =>
          simp only [htp, Option.some_inj, Prod.mk.injEq] at hrun
          exact ⟨hrun.1.symm, hrun.2.symm⟩
        | none =>
          simp only [htp] at hrun
          by_cases hieq : i = nn.children.length
          · rw [if_pos hieq] at hrun
            cases hσ₁t : upd σ n { nn with children := nn.children ++ [t] } t with
            | none =>
              simp only [hσ₁t] at hrun
              exact Option.noConfusion hrun
            | some tn₁ =>
              simp only [hσ₁t] at hrun
              cases hup : tree_update_height fuel
                  (upd (upd σ n { nn with children := nn.children ++ [t] }) t
                    { tn₁ with parent := some n, i := i }) (some n) with
              | none =>
                simp only [hup] at hrun
                exact Option.noConfusion hrun
              | some σ₃ =>
                simp only [hup, Option.some_inj, Prod.mk.injEq] at hrun
                exact Option.noConfusion hrun.1
          · rw [if_neg hieq] at hrun
            cases hci : nn.children.get? i with
            | none =>
              simp only [hci] at hrun
              exact Option.noConfusion hrun
            | some cold =>
              simp only [hci, tree_free] at hrun
              cases hσc : σ cold with
              | none =>
                simp only [hσc] at hrun
                exact Option.noConfusion hrun
              | some c0 =>
                simp only [hσc] at hrun
                cases hσfn : eraseA σ cold n with
                | none =>
                  simp only [hσfn] at hrun
                  exact Option.noConfusion hrun
                | some nnf =>
                  simp only [hσfn] at hrun
                  cases hσ₂t : upd (eraseA σ cold) n
                      { nnf with children := nnf.children.set i t } t with
                  | none =>
                    simp only [hσ₂t] at hrun
                    exact Option.noConfusion hrun
                  | some tn₂ =>
                    simp only [hσ₂t] at hrun
                    cases hup : tree_update_height fuel
                        (upd (upd (eraseA σ cold) n
                            { nnf with children := nnf.children.set i t }) t
                          { tn₂ with parent := some n, i := i }) (some n) with
                    | none =>
                      simp only [hup] at hrun
                      exact Option.noConfusion hrun
                    | some σ₃ =>
                      simp only [hup, Option.some_inj, Prod.mk.injEq] at hrun
                      exact Option.noConfusion hrun.1

/-- `tree_set_subtree` preserves the index invariant. -/
theorem wf_set_subtree {fuel : Nat} {σ : Arena} {n : Nat} {t : Option Nat} {i : Nat}
    {r : Option Nat} {σ' : Arena} (h : ChildWF σ)
    (hrun : tree_set_subtree fuel σ n t i = some (r, σ')) : ChildWF σ' := by
  cases t with
  | none =>
    simp only [tree_set_subtree, Option.some_inj, Prod.mk.injEq] at hrun
    rw [← hrun.2]
    exact h
  | some t =>
    simp only [tree_set_subtree] at hrun
    cases hn : σ n with
    | none =>
      simp only [hn] at hrun
      exact Option.noConfusion hrun
    | some nn =>
      simp only [hn] at hrun
      by_cases hgt : i > nn.children.length
      · rw [if_pos hgt] at hrun
        simp only [Option.some_inj, Prod.mk.injEq] at hrun
        rw [← hrun.2]
        exact h
      · rw [if_neg hgt] at hrun
        cases ht : σ t with
        | none =>
          simp only [ht] at hrun
          exact Option.noConfusion hrun
        | some tn =>
          simp only [ht] at hrun
          cases htp : tn.parent with
          | some q =>
            simp only [htp, Option.some_inj, Prod.mk.injEq] at hrun
            rw [← hrun.2]
            exact h
          | none =>
            simp only [htp] at hrun
            by_cases hieq : i = nn.children.length
            · rw [if_pos hieq] at hrun
              cases hσ₁t : upd σ n { nn with children := nn.children ++ [t] } t with
              | none =>
                simp only [hσ₁t] at hrun
                exact Option.noConfusion hrun
              | some tn₁ =>
                simp only [hσ₁t] at hrun
                cases hup : tree_update_height fuel
                    (upd (upd σ n { nn with children := nn.children ++ [t] }) t
                      { tn₁ with parent := some n, i := i }) (some n) with
                | none =>
                  simp only [hup] at hrun
                  exact Option.noConfusion hrun
                | some σ₃ =>
                  simp only [hup, Option.some_inj, Prod.mk.injEq] at hrun
                  rw [← hrun.2]
                  have hwf := h.append_child hn ht htp hσ₁t
                  rw [← hieq] at hwf
                  exact ChildWF.of_sameShape (tree_update_height_sameShape _ _ _ _ hup) hwf
            · rw [if_neg hieq] at hrun
              cases hci : nn.children.get? i with
              | none =>
                simp only [hci] at hrun
                exact Option.noConfusion hrun
              | some cold =>
                simp only [hci, tree_free] at hrun
                cases hσc : σ cold with
                | none =>
                  simp only [hσc] at hrun
                  exact Option.noConfusion hrun
                | some c0 =>
                  simp only [hσc] at hrun
                  cases hσfn : eraseA σ cold n with
                  | none =>
                    simp only [hσfn] at hrun
                    exact Option.noConfusion hrun
                  | some nnf =>
                    simp only [hσfn] at hrun
                    cases hσ₂t : upd (eraseA σ cold) n
                        { nnf with children := nnf.children.set i t } t with
                    | none =>
                      simp only [hσ₂t] at hrun
                      exact Option.noConfusion hrun
                    | some tn₂ =>
                      simp only [hσ₂t] at hrun
                      cases hup : tree_update_height fuel
                          (upd (upd (eraseA σ cold) n
                              { nnf with children := nnf.children.set i t }) t
                            { tn₂ with parent := some n, i := i }) (some n) with
                      | none =>
                        simp only [hup] at hrun
                        exact Option.noConfusion hrun
                      | some σ₃ =>
                        simp only [hup, Option.some_inj, Prod.mk.injEq] at hrun
                        rw [← hrun.2]
                        exact ChildWF.of_sameShape
                          (tree_update_height_sameShape _ _ _ _ hup)
                          (h.set_core hn ht htp hci hσfn hσ₂t)

/-- `tree_insert_child` preserves the index invariant (on rejection the
fresh node is freed again; it was never in a child array). -/
theorem wf_insert_child {fuel : Nat} {σ : Arena} {n data cid i : Nat}
    {r : Option Nat} {σ' : Arena} (h : ChildWF σ)
    (hrun : tree_insert_child fuel σ n data cid i = some (r, σ')) : ChildWF σ' := by
  simp only [tree_insert_child] at hrun
  cases hn : σ n with
  | none =>
    simp only [hn] at hrun
    exact Option.noConfusion hrun
  | some nn =>
    simp only [hn] at hrun
    by_cases hgt : i > nn.children.length
    · rw [if_pos hgt] at hrun
      simp only [Option.some_inj, Prod.mk.injEq] at hrun
      rw [← hrun.2]
      exact h
    · rw [if_neg hgt] at hrun
      cases ha : tree_alloc σ cid data with
      | none =>
        simp only [ha] at hrun
        exact Option.noConfusion hrun
      | some σ₀ =>
        simp only [ha] at hrun
        obtain ⟨h₀, hdead, hσ₀⟩ := h.alloc ha
        have hcid : σ₀ cid
            = some { parent := none, children := [], data := data, i := 0, h := 0 } := by
          rw [hσ₀]
          exact upd_same _ _ _
        cases hins : tree_insert_subtree fuel σ₀ n (some cid) i with
        | none =>
          simp only [hins] at hrun
          exact Option.noConfusion hrun
        | some cσ =>
          obtain ⟨c, σ₁⟩ := cσ
          simp only [hins] at hrun
          have h₁ := wf_insert_subtree h₀ hins
          cases c with
          | none =>
            simp only [Option.some_inj, Prod.mk.injEq] at hrun
            rw [← hrun.2]
            exact h₁
          | some c =>
            obtain ⟨hceq, hσeq⟩ := insert_subtree_pointer_shape hins
            have hceq2 : cid = c := hceq.symm
            subst hceq2
            have hσeq2 : σ₀ = σ₁ := hσeq.symm
            subst hσeq2
            simp only [tree_free, hcid] at hrun
            simp only [Option.some_inj, Prod.mk.injEq] at hrun
            rw [← hrun.2]
            exact h₀.erase_unchilded (fun q qn hq => h₀.not_in_children hcid rfl hq)

/-- `tree_set_child` preserves the index invariant. -/
theorem wf_set_child {fuel : Nat} {σ : Arena} {n data cid i : Nat}
    {r : Option Nat} {σ' : Arena} (h : ChildWF σ)
    (hrun : tree_set_child fuel σ n data cid i = some (r, σ')) : ChildWF σ' := by
  simp only [tree_set_child] at hrun
  cases hn : σ n with
  | none =>
    simp only [hn] at hrun
    exact Option.noConfusion hrun
  | some nn =>
    simp only [hn] at hrun
    by_cases hgt : i > nn.children.length
    · rw [if_pos hgt] at hrun
      simp only [Option.some_inj, Prod.mk.injEq] at hrun
      rw [← hrun.2]
      exact h
    · rw [if_neg hgt] at hrun
      cases ha : tree_alloc σ cid data with
      | none =>
        simp only [ha] at hrun
        exact Option.noConfusion hrun
      | some σ₀ =>
        simp only [ha] at hrun
        obtain ⟨h₀, hdead, hσ₀⟩ := h.alloc ha
        have hcid : σ₀ cid
            = some { parent := none, children := [], data := data, i := 0, h := 0 } := by
          rw [hσ₀]
          exact upd_same _ _ _
        cases hset : tree_set_subtree fuel σ₀ n (some cid) i with
        | none =>
          simp only [hset] at hrun
          exact Option.noConfusion hrun
        | some cσ =>
          obtain ⟨c, σ₁⟩ := cσ
          simp only [hset] at hrun
          have h₁ := wf_set_subtree h₀ hset
          cases c with
          | none =>
            simp only [Option.some_inj, Prod.mk.injEq] at hrun
            rw [← hrun.2]
            exact h₁
          | some c =>
            obtain ⟨hceq, hσeq⟩ := set_subtree_pointer_shape hset
            have hceq2 : cid = c := hceq.symm
            subst hceq2
            have hσeq2 : σ₀ = σ₁ := hσeq.symm
            subst hσeq2
            simp only [tree_free, hcid] at hrun
            simp only [Option.some_inj, Prod.mk.injEq] at hrun
            rw [← hrun.2]
            exact h₀.erase_unchilded (fun q qn hq => h₀.not_in_children hcid rfl hq)

/-- Run a sequence of public mutating operations. -/
def applyOps (fuel : Nat) : Arena → List TreeOp → Option Arena
  | σ, [] => some σ
  | σ, op :: ops =>
    match applyOp fuel σ op with
    | none => none
    | some σ₁ => applyOps fuel σ₁ ops

/-- A one-node heap (a single root at address `0` holding `7`). -/
def cwArena : Arena :=
  fun x =>
    if x = 0 then some { parent := none, children := [], data := 7, i := 0, h := 0 }
    else none

/-- The one-node heap satisfies the child-index invariant. -/
theorem cwArena_wf : ChildWF cwArena := by
  intro p pn hp j c hc
  by_cases hp0 : p = 0
  · subst hp0
    have hv : cwArena 0
        = some { parent := none, children := [], data := 7, i := 0, h := 0 } := rfl
    rw [hv] at hp
    have hp' : pn = { parent := none, children := [], data := 7, i := 0, h := 0 } :=
      (Option.some_inj.mp hp).symm
    rw [hp'] at hc
    simp at hc
  · have hv : cwArena p = none := by
      simp only [cwArena, if_neg hp0]
    rw [hv] at hp
    exact Option.noConfusion hp

/-- C6: index invariant.  Running any sequence of the public mutating
operations — `tree_add_child` / `tree_add_subtree` (attach),
`tree_insert_subtree` / `tree_insert_child`, `tree_set_subtree` /
`tree_set_child`, `tree_remove` (detach) — from a heap in which every child
array entry caches its own position (`ChildWF`: `p->children[i]->i == i`
with a live record and correct parent backpointer for every valid `i`)
yields a heap with the same property whenever the run is defined.  In
particular removing the child at position `k` shifts the children
`k+1..d-1` down one slot and decrements each moved child's stored index by
one, which is what `wf_node_remove_child` establishes and preservation
across `tree_remove` uses. -/
theorem index_invariant_preserved_by_operations {fuel : Nat} {σ σ' : Arena}
    {ops : List TreeOp} (h : ChildWF σ) (hrun : applyOps fuel σ ops = some σ') :
    ChildWF σ' := by
  induction ops generalizing σ with
  | nil =>
    simp only [applyOps, Option.some_inj] at hrun
    rw [← hrun]
    exact h
  | cons op ops ih =>
    simp only [applyOps] at hrun
    cases hop : applyOp fuel σ op with
    | none =>
      simp only [hop] at hrun
      exact Option.noConfusion hrun
    | some σ₁ =>
      simp only [hop] at hrun
      have h₁ : ChildWF σ₁ := by
        cases op with
        | addChild n d cid =>
          simp only [applyOp, Option.map_eq_some'] at hop
          obtain ⟨⟨r, σ₂⟩, hr, he⟩ := hop
          cases he
          exact wf_add_child h hr
        | addSubtree n t =>
          simp only [applyOp, Option.map_eq_some'] at hop
          obtain ⟨⟨r, σ₂⟩, hr, he⟩ := hop
          cases he
          exact wf_add_subtree h hr
        | insertSubtree n t i =>
          simp only [applyOp, Option.map_eq_some'] at hop
          obtain ⟨⟨r, σ₂⟩, hr, he⟩ := hop
          cases he
          exact wf_insert_subtree h hr
        | insertChild n d cid i =>
          simp only [applyOp, Option.map_eq_some'] at hop
          obtain ⟨⟨r, σ₂⟩, hr, he⟩ := hop
          cases he
          exact wf_insert_child h hr
        | setSubtree n t i =>
          simp only [applyOp, Option.map_eq_some'] at hop
          obtain ⟨⟨r, σ₂⟩, hr, he⟩ := hop
          cases he
          exact wf_set_subtree h hr
        | setChild n d cid i =>
          simp only [applyOp, Option.map_eq_some'] at hop
          obtain ⟨⟨r, σ₂⟩, hr, he⟩ := hop
          cases he
          exact wf_set_child h hr
        | remove n =>
          simp only [applyOp] at hop
          exact wf_remove h hop
      exact ih h₁ hrun

/-- Witness: adding two children to the one-node heap and then detaching
the first preserves the index invariant. -/
theorem index_invariant_preserved_by_operations_witness :
    ChildWF ((applyOps 4 cwArena
      [TreeOp.addChild 0 5 1, TreeOp.addChild 0 6 2, TreeOp.remove 1]).getD
        emptyArena) :=
  @index_invariant_preserved_by_operations 4 cwArena _
    [TreeOp.addChild 0 5 1, TreeOp.addChild 0 6 2, TreeOp.remove 1] cwArena_wf (by rfl)

end CTree
